import Mathlib

/-!
Verification development for the daedelus molecular-modelling core.

This file gives a shallow embedding of the simulation-preparation code in
`src/dynamics/prep.rs` (force-field parameter resolution, nonbonded masks,
Verlet neighbour list) and of the forward-kinematics solver in
`src/aa_coords/sc_atom_placement.rs`, and proves properties of those
embeddings.

Conventions of the embedding:
* Rust `f64`/`f32` scalars that only flow through the code unchanged are
  modelled as `ℚ` (the force-field tables), keeping every definition
  executable and every concrete instance decidable; the real-valued
  geometry of the kinematics solver is modelled over `ℝ`.
* Rust `HashMap`s keyed by atom indices are modelled as association lists
  with replace-on-collision insertion (`upsert`); `HashSet`s of pairs are
  modelled as duplicate-free lists.
* A Rust `Result<_, ParamError>` is modelled by `Outcome`, with a third
  constructor `crash` for a Rust panic (`unwrap()` on `None`, or an
  out-of-bounds slice index), which aborts the computation without
  producing an error value.
-/

/-- Amber-style mass parameters (`bio_files::amber_params::MassParams`);
only the fields read or written by the embedded code are modelled. -/
structure MassParams where
  atom_type : String
  mass : ℚ
  comment : Option String
deriving DecidableEq

/-- Lennard-Jones / van-der-Waals parameters
(`bio_files::amber_params::VdwParams`). -/
structure VdwParams where
  atom_type : String
  sigma : ℚ
  eps : ℚ
deriving DecidableEq

/-- Bond-stretching parameters (spring constant, equilibrium length).
The resolver copies these verbatim, so the payload fields are opaque. -/
structure BondParams where
  k_b : ℚ
  r_0 : ℚ
deriving DecidableEq

/-- Valence-angle parameters (spring constant, equilibrium angle). -/
structure AngleParams where
  k_theta : ℚ
  theta_0 : ℚ
deriving DecidableEq

/-- Dihedral (torsion) parameters: barrier height plus the integer
Fourier-term divisor; the resolver rewrites `divider`. -/
structure DihedralParams where
  barrier_height : ℚ
  divider : ℕ
deriving DecidableEq

/-- An atom, restricted to the single field the parameter resolver reads. -/
structure Atom where
  force_field_type : Option String
deriving DecidableEq

/-- A bond: an ordered pair of atom indices. -/
structure Bond where
  atom_0 : ℕ
  atom_1 : ℕ
deriving DecidableEq

/-- The keyed (type-label-indexed) force-field parameter tables
(`bio_files::amber_params::ForceFieldParamsKeyed`).  Hash maps become
functions to `Option`; `dihedral` models the external
`ForceFieldParamsKeyed::get_dihedral(&types, proper)` lookup (the `Bool`
is the `proper` flag), since its wildcard-matching internals live in the
external `bio_files` crate and the embedded code treats it opaquely. -/
structure ForceFieldParamsKeyed where
  mass : String → Option MassParams
  van_der_waals : String → Option VdwParams
  bond : String × String → Option BondParams
  angle : String × String × String → Option AngleParams
  dihedral : String × String × String × String → Bool → Option DihedralParams

/-- `merge_params` (src/dynamics/prep.rs:44): start from the generic set;
entries of the ligand-specific set replace or add to it. -/
def mergeParams (generic : ForceFieldParamsKeyed) :
    Option ForceFieldParamsKeyed → ForceFieldParamsKeyed
  | none => generic
  | some lig =>
    { mass := fun k => (lig.mass k).orElse fun _ => generic.mass k
      van_der_waals := fun k => (lig.van_der_waals k).orElse fun _ => generic.van_der_waals k
      bond := fun k => (lig.bond k).orElse fun _ => generic.bond k
      angle := fun k => (lig.angle k).orElse fun _ => generic.angle k
      dihedral := fun k p => (lig.dihedral k p).orElse fun _ => generic.dihedral k p }

/-- Result of a fallible Rust computation: `ok` = `Ok`, `err` = `Err(ParamError)`,
`crash` = a panic (`unwrap()` on `None` or slice-index out of bounds). -/
inductive Outcome (α : Type) where
  | ok : α → Outcome α
  | err : String → Outcome α
  | crash : Outcome α
deriving DecidableEq

/-- Sequencing of fallible steps (`?` / short-circuiting in the Rust). -/
def obind {α β : Type} : Outcome α → (α → Outcome β) → Outcome β
  | .ok a, f => f a
  | .err m, _ => .err m
  | .crash, _ => .crash

/-- Association-list analogue of `HashMap::insert`: replace the value when
the key is present, otherwise append the new entry. -/
def upsert {κ ν : Type} [DecidableEq κ] (m : List (κ × ν)) (key : κ) (v : ν) :
    List (κ × ν) :=
  if m.any (fun p => p.1 = key) then
    m.map (fun p => if p.1 = key then (key, v) else p)
  else m ++ [(key, v)]

/-- `atoms[i].force_field_type.as_ref().ok_or_else(err)?`: an out-of-range
index is a panic, a missing type label is the `ParamError` from the `err`
closure (src/dynamics/prep.rs:80). -/
def getAtomType (atoms : List Atom) (i : ℕ) : Outcome String :=
  match atoms.get? i with
  | none => .crash
  | some a =>
    match a.force_field_type with
    | some t => .ok t
    | none => .err "Atom missing FF type"

/-- Rust's `str::starts_with` on type labels, written over `String.data`
so that it reduces by kernel computation (the library `String.startsWith`
is byte-level and does not). -/
def strStartsWith (s pre : String) : Bool := pre.data.isPrefixOf s.data

/-- Mass resolution for one atom (src/dynamics/prep.rs:91-120): direct table
hit, else fallback entry keyed "C"/"N"/"O" by leading letter (`unwrap()` on
the fallback is a panic when absent), else the fixed placeholder mass. -/
def resolveMass (params : ForceFieldParamsKeyed) (t : String) : Outcome MassParams :=
  match params.mass t with
  | some m => .ok m
  | none =>
    if strStartsWith t "C" then
      match params.mass "C" with
      | some m => .ok m
      | none => .crash
    else if strStartsWith t "N" then
      match params.mass "N" with
      | some m => .ok m
      | none => .crash
    else if strStartsWith t "O" then
      match params.mass "O" with
      | some m => .ok m
      | none => .crash
    else .ok ⟨"", 12001/1000, none⟩

/-- Van-der-Waals resolution for one atom (src/dynamics/prep.rs:134-169):
direct hit, else fallback keyed "C*"/"N"/"O" by leading letter (panic when
the fallback entry is absent), else the zero-interaction placeholder. -/
def resolveVdw (params : ForceFieldParamsKeyed) (t : String) : Outcome VdwParams :=
  match params.van_der_waals t with
  | some v => .ok v
  | none =>
    if strStartsWith t "C" then
      match params.van_der_waals "C*" with
      | some v => .ok v
      | none => .crash
    else if strStartsWith t "N" then
      match params.van_der_waals "N" with
      | some v => .ok v
      | none => .crash
    else if strStartsWith t "O" then
      match params.van_der_waals "O" with
      | some v => .ok v
      | none => .crash
    else .ok ⟨"", 0, 0⟩

/-- The per-atom loop of `ForceFieldParamsIndexed::new`
(src/dynamics/prep.rs:86-170): for each atom (numbered from `i0`) require a
force-field type, then resolve mass and van-der-Waals parameters. -/
def resolveMassVdw (params : ForceFieldParamsKeyed) :
    List Atom → ℕ → Outcome (List (ℕ × MassParams) × List (ℕ × VdwParams))
  | [], _ => .ok ([], [])
  | a :: rest, i0 =>
    match a.force_field_type with
    | none => .err "Atom missing FF type"
    | some t =>
      obind (resolveMass params t) fun m =>
      obind (resolveVdw params t) fun v =>
      obind (resolveMassVdw params rest (i0 + 1)) fun mv =>
      .ok ((i0, m) :: mv.1, (i0, v) :: mv.2)

/-- The bond loop (src/dynamics/prep.rs:173-190): look up each bond's type
pair in both orders; a miss in both is a hard error; store under the
canonical `(min, max)` index pair. -/
def resolveBonds (params : ForceFieldParamsKeyed) (atoms : List Atom) :
    List Bond → List ((ℕ × ℕ) × BondParams) → Outcome (List ((ℕ × ℕ) × BondParams))
  | [], acc => .ok acc
  | b :: rest, acc =>
    obind (getAtomType atoms b.atom_0) fun ti =>
    obind (getAtomType atoms b.atom_1) fun tj =>
    match ((params.bond (ti, tj)).orElse fun _ => params.bond (tj, ti)) with
    | none => .err ("Missing bond parameters for " ++ ti ++ "-" ++ tj)
    | some d =>
      resolveBonds params atoms rest
        (upsert acc (min b.atom_0 b.atom_1, max b.atom_0 b.atom_1) d)

/-- `itertools::tuple_combinations` on a slice: all ordered pairs of
elements at strictly increasing positions. -/
def pairsOf {α : Type} : List α → List (α × α)
  | [] => []
  | x :: xs => xs.map (fun y => (x, y)) ++ pairsOf xs

/-- Inner angle loop for one center (src/dynamics/prep.rs:197-224): for each
neighbour pair, look up the type triple in both orders; a miss in both is a
hard error; insert under `(i, center, k)`. -/
def anglesForCenter (params : ForceFieldParamsKeyed) (atoms : List Atom) (center : ℕ) :
    List (ℕ × ℕ) → List ((ℕ × ℕ × ℕ) × AngleParams) →
    Outcome (List ((ℕ × ℕ × ℕ) × AngleParams))
  | [], acc => .ok acc
  | (i, k) :: rest, acc =>
    obind (getAtomType atoms i) fun t0 =>
    obind (getAtomType atoms center) fun t1 =>
    obind (getAtomType atoms k) fun t2 =>
    match ((params.angle (t0, t1, t2)).orElse fun _ => params.angle (t2, t1, t0)) with
    | none => .err ("Missing valence angle parameters for " ++ t0 ++ "-" ++ t1 ++ "-" ++ t2)
    | some d => anglesForCenter params atoms center rest (upsert acc (i, center, k) d)

/-- The angle loop (src/dynamics/prep.rs:193-225): every atom with at least
two neighbours contributes one term per unordered pair of its neighbours. -/
def resolveAngles (params : ForceFieldParamsKeyed) (atoms : List Atom) :
    List (List ℕ) → ℕ → List ((ℕ × ℕ × ℕ) × AngleParams) →
    Outcome (List ((ℕ × ℕ × ℕ) × AngleParams))
  | [], _, acc => .ok acc
  | neigh :: rest, center, acc =>
    if neigh.length < 2 then resolveAngles params atoms rest (center + 1) acc
    else
      obind (anglesForCenter params atoms center (pairsOf neigh) acc) fun acc' =>
      resolveAngles params atoms rest (center + 1) acc'

/-- A four-atom index key into the shared dihedral map. -/
abbrev Quad := ℕ × ℕ × ℕ × ℕ

/-- State threaded through the two dihedral loops: the shared `seen` set of
4-tuples and the accumulated `result.dihedral` map. -/
abbrev DiheState := List Quad × List (Quad × DihedralParams)

/-- The canonicalised proper-dihedral key (src/dynamics/prep.rs:312):
`if i < l { (i, j, k, l) } else { (l, k, j, i) }`. -/
def properKey (i j k l : ℕ) : Quad := if i < l then (i, j, k, l) else (l, k, j, i)

/-- Innermost proper-dihedral loop (src/dynamics/prep.rs:306-338), over the
outer atom `l` drawn from `adjacency_list[k]`: skip `l = j` (the iterator
filter) and self-torsions `i = l`; canonicalise so the outer endpoints are
`(min, max)`; the shared seen-set rejects duplicates; a found parameter set
is stored with `divider` rewritten to 1, a missing one is skipped. -/
def properInner (params : ForceFieldParamsKeyed) (atoms : List Atom) (j k i : ℕ) :
    List ℕ → DiheState → Outcome DiheState
  | [], st => .ok st
  | l :: rest, st =>
    if l = j then properInner params atoms j k i rest st
    else if i = l then properInner params atoms j k i rest st
    else
      let key : Quad := properKey i j k l
      if key ∈ st.1 then properInner params atoms j k i rest st
      else
        obind (getAtomType atoms i) fun ti =>
        obind (getAtomType atoms j) fun tj =>
        obind (getAtomType atoms k) fun tk =>
        obind (getAtomType atoms l) fun tl =>
        match params.dihedral (ti, tj, tk, tl) true with
        | some d =>
          properInner params atoms j k i rest
            (key :: st.1, upsert st.2 key { d with divider := 1 })
        | none => properInner params atoms j k i rest (key :: st.1, st.2)

/-- Middle proper-dihedral loop (src/dynamics/prep.rs:305), over the outer
atom `i` drawn from `adjacency_list[j]` with the filter `i ≠ k`; indexing
`adjacency_list[k]` out of range is a panic. -/
def properMid (params : ForceFieldParamsKeyed) (atoms : List Atom)
    (adj : List (List ℕ)) (j k : ℕ) :
    List ℕ → DiheState → Outcome DiheState
  | [], st => .ok st
  | i :: rest, st =>
    if i = k then properMid params atoms adj j k rest st
    else
      match adj.get? k with
      | none => .crash
      | some adjk =>
        obind (properInner params atoms j k i adjk st) fun st' =>
        properMid params atoms adj j k rest st'

/-- Outer proper-dihedral loop over `k ∈ adjacency_list[j]`
(src/dynamics/prep.rs:299-302): each central bond is handled once via the
`j ≥ k` skip. -/
def properBonds (params : ForceFieldParamsKeyed) (atoms : List Atom)
    (adj : List (List ℕ)) (j : ℕ) (nbrJ : List ℕ) :
    List ℕ → DiheState → Outcome DiheState
  | [], st => .ok st
  | k :: rest, st =>
    if j ≥ k then properBonds params atoms adj j nbrJ rest st
    else
      obind (properMid params atoms adj j k nbrJ st) fun st' =>
      properBonds params atoms adj j nbrJ rest st'

/-- The proper-dihedral phase (src/dynamics/prep.rs:298-341), enumerating
`(j, nbr_j)` over the adjacency list. -/
def resolvePropers (params : ForceFieldParamsKeyed) (atoms : List Atom)
    (adj : List (List ℕ)) :
    List (List ℕ) → ℕ → DiheState → Outcome DiheState
  | [], _, st => .ok st
  | nbrJ :: rest, j, st =>
    obind (properBonds params atoms adj j nbrJ nbrJ st) fun st' =>
    resolvePropers params atoms adj rest (j + 1) st'

/-- All ordered triples of elements at strictly increasing positions (the
`a < b < d` index loops of src/dynamics/prep.rs:352-354). -/
def triplesOf {α : Type} : List α → List (α × α × α)
  | [] => []
  | x :: xs => (pairsOf xs).map (fun p => (x, p.1, p.2)) ++ triplesOf xs

/-- Inner improper-dihedral loop for one center (src/dynamics/prep.rs:352-384):
the key `(i, c, k, l)` keeps its fixed order, shares the seen-set with the
proper phase, and is inserted into the same dihedral map with `divider`
rewritten to 1; a missing parameter set is skipped. -/
def improperInner (params : ForceFieldParamsKeyed) (atoms : List Atom) (c : ℕ) :
    List (ℕ × ℕ × ℕ) → DiheState → Outcome DiheState
  | [], st => .ok st
  | (i, k, l) :: rest, st =>
    let key : Quad := (i, c, k, l)
    if key ∈ st.1 then improperInner params atoms c rest st
    else
      obind (getAtomType atoms i) fun ti =>
      obind (getAtomType atoms c) fun tc =>
      obind (getAtomType atoms k) fun tk =>
      obind (getAtomType atoms l) fun tl =>
      match params.dihedral (ti, tc, tk, tl) false with
      | some d =>
        improperInner params atoms c rest
          (key :: st.1, upsert st.2 key { d with divider := 1 })
      | none => improperInner params atoms c rest (key :: st.1, st.2)

/-- The improper-dihedral phase (src/dynamics/prep.rs:346-386): every atom
with at least three neighbours contributes one term per unordered triple of
its neighbours. -/
def resolveImpropers (params : ForceFieldParamsKeyed) (atoms : List Atom) :
    List (List ℕ) → ℕ → DiheState → Outcome DiheState
  | [], _, st => .ok st
  | sats :: rest, c, st =>
    if sats.length < 3 then resolveImpropers params atoms rest (c + 1) st
    else
      obind (improperInner params atoms c (triplesOf sats) st) fun st' =>
      resolveImpropers params atoms rest (c + 1) st'

/-- The atom-index-keyed parameter tables (`ForceFieldParamsIndexed`);
proper and improper dihedrals share the single `dihedral` map. -/
structure ForceFieldParamsIndexed where
  mass : List (ℕ × MassParams) := []
  van_der_waals : List (ℕ × VdwParams) := []
  bond_stretching : List ((ℕ × ℕ) × BondParams) := []
  angle : List ((ℕ × ℕ × ℕ) × AngleParams) := []
  dihedral : List (Quad × DihedralParams) := []
deriving DecidableEq

/-- The phases of `ForceFieldParamsIndexed::new` after the per-atom
mass/van-der-Waals loop: bonds, angles, proper dihedrals, improper
dihedrals (src/dynamics/prep.rs:172-388). -/
def afterMass (params : ForceFieldParamsKeyed) (atoms : List Atom)
    (bonds : List Bond) (adj : List (List ℕ))
    (mv : List (ℕ × MassParams) × List (ℕ × VdwParams)) :
    Outcome ForceFieldParamsIndexed :=
  obind (resolveBonds params atoms bonds []) fun bs =>
  obind (resolveAngles params atoms adj 0 []) fun angs =>
  obind (resolvePropers params atoms adj adj 0 ([], [])) fun st1 =>
  obind (resolveImpropers params atoms adj 0 st1) fun st2 =>
  .ok ⟨mv.1, mv.2, bs, angs, st2.2⟩

/-- `ForceFieldParamsIndexed::new` (src/dynamics/prep.rs:71-389): merge the
generic and molecule-specific tables, then run the per-atom loop and the
four bonded-term phases. -/
def ffIndexedNew (pg : ForceFieldParamsKeyed) (ps : Option ForceFieldParamsKeyed)
    (atoms : List Atom) (bonds : List Bond) (adj : List (List ℕ)) :
    Outcome ForceFieldParamsIndexed :=
  let params := mergeParams pg ps
  obind (resolveMassVdw params atoms 0) fun mv =>
  afterMass params atoms bonds adj mv

/-- Canonical `(low, high)` order for an unordered atom-index pair
(the `push` helper of `MdState::build_masks`, src/dynamics/prep.rs:495-501). -/
def canonPair (i j : ℕ) : ℕ × ℕ := if i < j then (i, j) else (j, i)

/-- Set-insert of a canonicalised pair. -/
def pushPair (s : List (ℕ × ℕ)) (i j : ℕ) : List (ℕ × ℕ) :=
  if canonPair i j ∈ s then s else canonPair i j :: s

/-- `MdState::build_masks` (src/dynamics/prep.rs:493-522): 1-2 pairs from
bond terms and 1-3 outer pairs from angle terms form `excluded_pairs`; the
outer pair of every entry of the shared dihedral map forms
`scaled14_pairs`; finally every scaled pair is removed from the excluded
set.  Returns `(excluded_pairs, scaled14_pairs)`. -/
def buildMasks (ffp : ForceFieldParamsIndexed) :
    List (ℕ × ℕ) × List (ℕ × ℕ) :=
  let ex12 := ffp.bond_stretching.foldl (fun s kv => pushPair s kv.1.1 kv.1.2) []
  let ex13 := ffp.angle.foldl (fun s kv => pushPair s kv.1.1 kv.1.2.2) ex12
  let sc := ffp.dihedral.foldl (fun s kv => pushPair s kv.1.1 kv.1.2.2.2) []
  (ex13.filter (fun p => ¬ p ∈ sc), sc)

/-- A 3-vector with rational components (positions as used by the
neighbour-list construction). -/
structure Vec3Q where
  x : ℚ
  y : ℚ
  z : ℚ
deriving DecidableEq

/-- Componentwise difference of positions. -/
def Vec3Q.sub (a b : Vec3Q) : Vec3Q := ⟨a.x - b.x, a.y - b.y, a.z - b.z⟩

/-- `Vec3::magnitude_squared`. -/
def Vec3Q.magSq (a : Vec3Q) : ℚ := a.x * a.x + a.y * a.y + a.z * a.z

/-- The axis-aligned simulation cell (`dynamics::ambient::SimBox`). -/
structure SimBox where
  lo : Vec3Q
  hi : Vec3Q

/-- Modelled from the spec: `SimBox::min_image` is declared in
`dynamics/ambient` which is not under src/; §4.4 of the spec says it wraps
"each axis component into [-half-extent, +half-extent]".  One axis:
subtract the nearest integer multiple of the axis extent. -/
def wrapAxis (len d : ℚ) : ℚ := d - len * (round (d / len) : ℤ)

/-- Modelled from the spec: componentwise minimum-image wrapping over the
cell's axis extents. -/
def SimBox.minImage (cell : SimBox) (d : Vec3Q) : Vec3Q :=
  ⟨wrapAxis (cell.hi.x - cell.lo.x) d.x,
   wrapAxis (cell.hi.y - cell.lo.y) d.y,
   wrapAxis (cell.hi.z - cell.lo.z) d.z⟩

/-- Append one value to the sublist at a given row index (the
`self.neighbour[i].push(j)` updates); out-of-range rows are unchanged. -/
def appendAt : List (List ℕ) → ℕ → ℕ → List (List ℕ)
  | [], _, _ => []
  | xs :: rest, 0, v => (xs ++ [v]) :: rest
  | xs :: rest, n + 1, v => xs :: appendAt rest n v

/-- The squared magnitude of the minimum-image displacement
`cell.min_image(posit[j] - posit[i])` (the `dv` of
src/dynamics/prep.rs:530-533). -/
def pairDist2 (posits : List Vec3Q) (cell : SimBox) (i j : ℕ) : ℚ :=
  (cell.minImage ((posits.getD j ⟨0, 0, 0⟩).sub (posits.getD i ⟨0, 0, 0⟩))).magSq

/-- Inner neighbour loop over `j` for a fixed `i`
(src/dynamics/prep.rs:529-537): when the minimum-image squared distance is
strictly below the cutoff, push `j` into row `i` and `i` into row `j`. -/
def neighLoopJ (posits : List Vec3Q) (cell : SimBox) (c2 : ℚ) (i : ℕ) :
    List ℕ → List (List ℕ) → List (List ℕ)
  | [], nbr => nbr
  | j :: rest, nbr =>
    if pairDist2 posits cell i j < c2 then
      neighLoopJ posits cell c2 i rest (appendAt (appendAt nbr i j) j i)
    else neighLoopJ posits cell c2 i rest nbr

/-- Outer neighbour loop over `i` (src/dynamics/prep.rs:528). -/
def neighLoopI (posits : List Vec3Q) (cell : SimBox) (c2 : ℚ) (n : ℕ) :
    List ℕ → List (List ℕ) → List (List ℕ)
  | [], nbr => nbr
  | i :: rest, nbr =>
    neighLoopI posits cell c2 n rest
      (neighLoopJ posits cell c2 i ((List.range n).drop (i + 1)) nbr)

/-- `MdState::build_neighbours` (src/dynamics/prep.rs:525-544): quadratic
pairwise scan with cutoff `(CUTOFF + SKIN)²`; `CUTOFF` and `SKIN` are
constants declared outside src/, so they are parameters here.  (The Rust
range `0..len - 1` underflows for zero atoms; natural subtraction makes the
model total there, with no pairs scanned.) -/
def buildNeighbours (posits : List Vec3Q) (cell : SimBox) (cutoff skin : ℚ) :
    List (List ℕ) :=
  let c2 := (cutoff + skin) ^ 2
  neighLoopI posits cell c2 posits.length
    (List.range (posits.length - 1)) (List.replicate posits.length [])

/-! ### Mask lemmas -/

theorem mem_pushPair (s : List (ℕ × ℕ)) (i j : ℕ) (p : ℕ × ℕ) :
    p ∈ pushPair s i j ↔ p ∈ s ∨ p = canonPair i j := by
  unfold pushPair
  split
  · constructor
    · exact fun h => Or.inl h
    · rintro (h | rfl)
      · exact h
      · assumption
  · simp [or_comm]

theorem mem_foldl_pushPair {α : Type} (g1 g2 : α → ℕ) (l : List α)
    (init : List (ℕ × ℕ)) (p : ℕ × ℕ) :
    p ∈ l.foldl (fun s kv => pushPair s (g1 kv) (g2 kv)) init ↔
      p ∈ init ∨ ∃ kv ∈ l, p = canonPair (g1 kv) (g2 kv) := by
  induction l generalizing init with
  | nil => simp
  | cons a rest ih =>
    simp only [List.foldl_cons, ih, mem_pushPair, List.mem_cons]
    constructor
    · rintro ((h | h) | ⟨kv, hkv, rfl⟩)
      · exact Or.inl h
      · exact Or.inr ⟨a, Or.inl rfl, h⟩
      · exact Or.inr ⟨kv, Or.inr hkv, rfl⟩
    · rintro (h | ⟨kv, (rfl | hkv), rfl⟩)
      · exact Or.inl (Or.inl h)
      · exact Or.inl (Or.inr rfl)
      · exact Or.inr ⟨kv, hkv, rfl⟩

theorem mem_buildMasks_scaled (ffp : ForceFieldParamsIndexed) (p : ℕ × ℕ) :
    p ∈ (buildMasks ffp).2 ↔
      ∃ kv ∈ ffp.dihedral, p = canonPair kv.1.1 kv.1.2.2.2 := by
  have h := mem_foldl_pushPair (fun kv : Quad × DihedralParams => kv.1.1)
    (fun kv => kv.1.2.2.2) ffp.dihedral [] p
  simpa [buildMasks] using h

/-- Every pair kept in the excluded set survived the final removal pass, so
it cannot be in the scaled set. -/
theorem excluded_not_scaled (ffp : ForceFieldParamsIndexed) (p : ℕ × ℕ)
    (hp : p ∈ (buildMasks ffp).1) : p ∉ (buildMasks ffp).2 := by
  simp only [buildMasks, List.mem_filter, decide_not] at hp ⊢
  intro hsc
  rcases hp with ⟨-, hp⟩
  simp [hsc] at hp

/-! ### Concrete fixtures -/

/-- A force-field table set in which every lookup succeeds (dihedral
entries carry barrier height 4 and divisor 2). -/
def permissiveParams : ForceFieldParamsKeyed :=
  { mass := fun _ => some ⟨"", 12, none⟩
    van_der_waals := fun _ => some ⟨"", 1, 1⟩
    bond := fun _ => some ⟨100, 1⟩
    angle := fun _ => some ⟨50, 2⟩
    dihedral := fun _ _ => some ⟨4, 2⟩ }

/-- Unwrap a successful resolution (fixtures only). -/
def okOr (o : Outcome ForceFieldParamsIndexed) : ForceFieldParamsIndexed :=
  match o with
  | .ok r => r
  | _ => {}

/-- Four atoms in a simple chain 0-1-2-3. -/
def chainAtoms : List Atom := [⟨some "t0"⟩, ⟨some "t1"⟩, ⟨some "t2"⟩, ⟨some "t3"⟩]

/-- The chain's bonds. -/
def chainBonds : List Bond := [⟨0, 1⟩, ⟨1, 2⟩, ⟨2, 3⟩]

/-- The chain's symmetric adjacency list. -/
def chainAdj : List (List ℕ) := [[1], [0, 2], [1, 3], [2]]

/-- A 4-membered ring 0-1-2-3-0: every 1-4 outer pair coincides with a
1-2 bonded pair. -/
def ringAtoms : List Atom := [⟨some "a"⟩, ⟨some "b"⟩, ⟨some "c"⟩, ⟨some "d"⟩]

/-- The ring's bonds. -/
def ringBonds : List Bond := [⟨0, 1⟩, ⟨1, 2⟩, ⟨2, 3⟩, ⟨3, 0⟩]

/-- The ring's symmetric adjacency list. -/
def ringAdj : List (List ℕ) := [[1, 3], [0, 2], [1, 3], [0, 2]]

/-- The ring's resolved indexed table. -/
def ringIndexed : ForceFieldParamsIndexed :=
  okOr (ffIndexedNew permissiveParams none ringAtoms ringBonds ringAdj)

/-- A star: center 0 bonded to satellites 1, 2, 3 (the smallest topology
with an improper dihedral and no proper dihedral). -/
def starAtoms : List Atom := [⟨some "c0"⟩, ⟨some "s1"⟩, ⟨some "s2"⟩, ⟨some "s3"⟩]

/-- The star's bonds. -/
def starBonds : List Bond := [⟨0, 1⟩, ⟨0, 2⟩, ⟨0, 3⟩]

/-- The star's symmetric adjacency list. -/
def starAdj : List (List ℕ) := [[1, 2, 3], [0], [0], [0]]

/-- The star's resolved indexed table. -/
def starIndexed : ForceFieldParamsIndexed :=
  okOr (ffIndexedNew permissiveParams none starAtoms starBonds starAdj)

/-- C3.  After `build_masks` runs, the intersection of `excluded_pairs`
and `scaled14_pairs` is empty for every input: every pair occurring in
both sets is removed from `excluded_pairs`, so 1-4 scaling takes
precedence over exclusion (the 4-membered-ring instance, where each 1-4
path coincides with a 1-2 path, is exercised by the witness below). -/
theorem c3_build_masks_disjoint (ffp : ForceFieldParamsIndexed) (p : ℕ × ℕ)
    (hp : p ∈ (buildMasks ffp).1) : p ∉ (buildMasks ffp).2 :=
  excluded_not_scaled ffp p hp

theorem c3_build_masks_disjoint_witness :
    (0, 2) ∈ (buildMasks ringIndexed).1 ∧ (0, 2) ∉ (buildMasks ringIndexed).2 :=
  ⟨by decide, c3_build_masks_disjoint ringIndexed (0, 2) (by decide)⟩

/-- C10.  Improper dihedral terms land in the same indexed dihedral map as
proper terms, so `build_masks` adds the canonicalised outer pair `(i, l)`
of every stored dihedral key `(i, c, k, l)` to `scaled14_pairs` and
removes it from `excluded_pairs`; on the star topology the improper term
`(1, 0, 2, 3)` is stored there, its outer atoms 1 and 3 are both direct
neighbours of the center 0 (a 1-3 pair, witnessed by the angle term
`(1, 0, 3)`), yet `(1, 3)` ends in the scaled set and not in the excluded
set. -/
theorem c10_improper_outer_pair_scaled :
    (∀ (ffp : ForceFieldParamsIndexed) (i c k l : ℕ) (v : DihedralParams),
      ((i, c, k, l), v) ∈ ffp.dihedral →
        canonPair i l ∈ (buildMasks ffp).2 ∧ canonPair i l ∉ (buildMasks ffp).1) ∧
    (∃ r, ffIndexedNew permissiveParams none starAtoms starBonds starAdj = .ok r ∧
      ((1, 0, 2, 3), (⟨4, 1⟩ : DihedralParams)) ∈ r.dihedral ∧
      1 ∈ starAdj.getD 0 [] ∧ 3 ∈ starAdj.getD 0 [] ∧
      ((1, 0, 3), (⟨50, 2⟩ : AngleParams)) ∈ r.angle ∧
      canonPair 1 3 ∈ (buildMasks r).2 ∧ canonPair 1 3 ∉ (buildMasks r).1) := by
  constructor
  · intro ffp i c k l v hmem
    have hsc : canonPair i l ∈ (buildMasks ffp).2 :=
      (mem_buildMasks_scaled ffp _).mpr ⟨((i, c, k, l), v), hmem, rfl⟩
    exact ⟨hsc, fun hex => (excluded_not_scaled ffp _ hex) hsc⟩
  · exact ⟨starIndexed, by decide, by decide, by decide, by decide, by decide,
      by decide, by decide⟩

theorem c10_improper_outer_pair_scaled_witness :
    canonPair 1 3 ∈ (buildMasks starIndexed).2 ∧
      canonPair 1 3 ∉ (buildMasks starIndexed).1 :=
  c10_improper_outer_pair_scaled.1 starIndexed 1 0 2 3 ⟨4, 1⟩ (by decide)

/-! ### Dihedral-value invariants (divider rewriting) -/

theorem obind_ok {α β : Type} {o : Outcome α} {f : α → Outcome β} {b : β}
    (h : obind o f = .ok b) : ∃ a, o = .ok a ∧ f a = .ok b := by
  cases o with
  | ok a => exact ⟨a, rfl, h⟩
  | err m => simp [obind] at h
  | crash => simp [obind] at h

theorem mem_upsert {κ ν : Type} [DecidableEq κ] {m : List (κ × ν)} {key : κ}
    {v : ν} {kv : κ × ν} (h : kv ∈ upsert m key v) : kv ∈ m ∨ kv = (key, v) := by
  unfold upsert at h
  split at h
  · rcases List.mem_map.mp h with ⟨p, hp, hkv⟩
    by_cases hk : p.1 = key
    · right
      rw [if_pos hk] at hkv
      exact hkv.symm
    · left
      rw [if_neg hk] at hkv
      exact hkv ▸ hp
  · rcases List.mem_append.mp h with h | h
    · exact Or.inl h
    · exact Or.inr (by simpa using h)

/-- Every value of the dihedral map has `divider` 1 and carries, unchanged,
the barrier height of some entry of the keyed table. -/
def DiheVals (params : ForceFieldParamsKeyed)
    (m : List (Quad × DihedralParams)) : Prop :=
  ∀ kv ∈ m, ∃ q pr d0, params.dihedral q pr = some d0 ∧
    kv.2 = { d0 with divider := 1 }

theorem diheVals_upsert {params : ForceFieldParamsKeyed}
    {m : List (Quad × DihedralParams)} {key : Quad} {d0 : DihedralParams}
    {q : String × String × String × String} {pr : Bool}
    (hv : DiheVals params m) (hd : params.dihedral q pr = some d0) :
    DiheVals params (upsert m key { d0 with divider := 1 }) := by
  intro kv hkv
  rcases mem_upsert hkv with h | rfl
  · exact hv kv h
  · exact ⟨q, pr, d0, hd, rfl⟩

theorem properInner_vals {params : ForceFieldParamsKeyed} {atoms : List Atom}
    {j k i : ℕ} (l : List ℕ) (st st' : DiheState)
    (h : properInner params atoms j k i l st = .ok st')
    (hv : DiheVals params st.2) : DiheVals params st'.2 := by
  induction l generalizing st with
  | nil =>
    simp only [properInner] at h
    cases h
    exact hv
  | cons a rest ih =>
    simp only [properInner] at h
    split at h
    · exact ih st h hv
    · split at h
      · exact ih st h hv
      · split at h
        · exact ih st h hv
        · rcases obind_ok h with ⟨ti, _, h⟩
          rcases obind_ok h with ⟨tj, _, h⟩
          rcases obind_ok h with ⟨tk, _, h⟩
          rcases obind_ok h with ⟨tl, _, h⟩
          split at h
          next d hd => exact ih _ h (diheVals_upsert hv hd)
          next => exact ih _ h hv

theorem properMid_vals {params : ForceFieldParamsKeyed} {atoms : List Atom}
    {adj : List (List ℕ)} {j k : ℕ} (l : List ℕ) (st st' : DiheState)
    (h : properMid params atoms adj j k l st = .ok st')
    (hv : DiheVals params st.2) : DiheVals params st'.2 := by
  induction l generalizing st with
  | nil =>
    simp only [properMid] at h
    cases h
    exact hv
  | cons a rest ih =>
    simp only [properMid] at h
    split at h
    · exact ih st h hv
    · split at h
      · exact absurd h (by simp)
      · rcases obind_ok h with ⟨st1, h1, h⟩
        exact ih st1 h (properInner_vals _ st st1 h1 hv)

theorem properBonds_vals {params : ForceFieldParamsKeyed} {atoms : List Atom}
    {adj : List (List ℕ)} {j : ℕ} {nbrJ : List ℕ} (l : List ℕ)
    (st st' : DiheState)
    (h : properBonds params atoms adj j nbrJ l st = .ok st')
    (hv : DiheVals params st.2) : DiheVals params st'.2 := by
  induction l generalizing st with
  | nil =>
    simp only [properBonds] at h
    cases h
    exact hv
  | cons a rest ih =>
    simp only [properBonds] at h
    split at h
    · exact ih st h hv
    · rcases obind_ok h with ⟨st1, h1, h⟩
      exact ih st1 h (properMid_vals _ st st1 h1 hv)

theorem resolvePropers_vals {params : ForceFieldParamsKeyed} {atoms : List Atom}
    {adj : List (List ℕ)} (ls : List (List ℕ)) (j0 : ℕ) (st st' : DiheState)
    (h : resolvePropers params atoms adj ls j0 st = .ok st')
    (hv : DiheVals params st.2) : DiheVals params st'.2 := by
  induction ls generalizing j0 st with
  | nil =>
    simp only [resolvePropers] at h
    cases h
    exact hv
  | cons a rest ih =>
    simp only [resolvePropers] at h
    rcases obind_ok h with ⟨st1, h1, h⟩
    exact ih _ st1 h (properBonds_vals _ st st1 h1 hv)

theorem improperInner_vals {params : ForceFieldParamsKeyed} {atoms : List Atom}
    {c : ℕ} (l : List (ℕ × ℕ × ℕ)) (st st' : DiheState)
    (h : improperInner params atoms c l st = .ok st')
    (hv : DiheVals params st.2) : DiheVals params st'.2 := by
  induction l generalizing st with
  | nil =>
    simp only [improperInner] at h
    cases h
    exact hv
  | cons a rest ih =>
    obtain ⟨i, k, l'⟩ := a
    simp only [improperInner] at h
    split at h
    · exact ih st h hv
    · rcases obind_ok h with ⟨ti, _, h⟩
      rcases obind_ok h with ⟨tc, _, h⟩
      rcases obind_ok h with ⟨tk, _, h⟩
      rcases obind_ok h with ⟨tl, _, h⟩
      split at h
      next d hd => exact ih _ h (diheVals_upsert hv hd)
      next => exact ih _ h hv

theorem resolveImpropers_vals {params : ForceFieldParamsKeyed}
    {atoms : List Atom} (ls : List (List ℕ)) (c0 : ℕ) (st st' : DiheState)
    (h : resolveImpropers params atoms ls c0 st = .ok st')
    (hv : DiheVals params st.2) : DiheVals params st'.2 := by
  induction ls generalizing c0 st with
  | nil =>
    simp only [resolveImpropers] at h
    cases h
    exact hv
  | cons a rest ih =>
    simp only [resolveImpropers] at h
    split at h
    · exact ih _ st h hv
    · rcases obind_ok h with ⟨st1, h1, h⟩
      exact ih _ st1 h (improperInner_vals _ st st1 h1 hv)

/-- The chain's resolved indexed table (the permissive tables give every
dihedral entry barrier height 4 and divisor 2). -/
def chainIndexed : ForceFieldParamsIndexed :=
  okOr (ffIndexedNew permissiveParams none chainAtoms chainBonds chainAdj)

/-- C8 counterexample.  On the 0-1-2-3 chain the keyed table's dihedral
entry has barrier height 4 and divisor 2, yet the stored entry keeps
barrier height 4 (with divider rewritten to 1): the barrier height is NOT
pre-divided by the divisor (4 ≠ 4/2), so the stored entry differs from the
pre-divided one the claim describes.  (The pre-division is commented out
in the source, src/dynamics/prep.rs:330.) -/
theorem c8_counterexample :
    ffIndexedNew permissiveParams none chainAtoms chainBonds chainAdj =
      .ok chainIndexed ∧
    permissiveParams.dihedral ("t0", "t1", "t2", "t3") true = some ⟨4, 2⟩ ∧
    ((0, 1, 2, 3), (⟨4, 1⟩ : DihedralParams)) ∈ chainIndexed.dihedral ∧
    ¬ ((0, 1, 2, 3), (⟨2, 1⟩ : DihedralParams)) ∈ chainIndexed.dihedral ∧
    (4 : ℚ) / 2 = 2 ∧ ¬ ((4 : ℚ) = 4 / 2) := by
  refine ⟨by decide, rfl, by decide, by decide, by norm_num, by norm_num⟩

/-- C8 (amended).  Every dihedral entry stored by
`ForceFieldParamsIndexed::new` — proper or improper — has its `divider`
field normalized to 1 and its barrier height stored UNCHANGED from the
keyed-table entry it came from (the pre-division by the divisor is not
performed; the source assumes table values are already pre-divided). -/
theorem c8_divider_normalized (pg : ForceFieldParamsKeyed)
    (ps : Option ForceFieldParamsKeyed) (atoms : List Atom)
    (bonds : List Bond) (adj : List (List ℕ)) (r : ForceFieldParamsIndexed)
    (h : ffIndexedNew pg ps atoms bonds adj = .ok r) :
    ∀ kv ∈ r.dihedral, kv.2.divider = 1 ∧
      ∃ q pr d0, (mergeParams pg ps).dihedral q pr = some d0 ∧
        kv.2 = { d0 with divider := 1 } := by
  unfold ffIndexedNew at h
  rcases obind_ok h with ⟨mv, hmv, h⟩
  unfold afterMass at h
  rcases obind_ok h with ⟨bs, hbs, h⟩
  rcases obind_ok h with ⟨angs, hangs, h⟩
  rcases obind_ok h with ⟨st1, hst1, h⟩
  rcases obind_ok h with ⟨st2, hst2, h⟩
  cases h
  have h1 : DiheVals (mergeParams pg ps) st1.2 :=
    resolvePropers_vals _ _ _ _ hst1 (by intro kv hkv; simp at hkv)
  have h2 : DiheVals (mergeParams pg ps) st2.2 :=
    resolveImpropers_vals _ _ _ _ hst2 h1
  intro kv hkv
  rcases h2 kv hkv with ⟨q, pr, d0, hd, hkv2⟩
  exact ⟨by rw [hkv2], q, pr, d0, hd, hkv2⟩

theorem c8_divider_normalized_witness :
    ((⟨4, 1⟩ : DihedralParams).divider = 1 ∧
      ∃ q pr d0, (mergeParams permissiveParams none).dihedral q pr = some d0 ∧
        (⟨4, 1⟩ : DihedralParams) = { d0 with divider := 1 }) :=
  c8_divider_normalized permissiveParams none chainAtoms chainBonds chainAdj
    chainIndexed (by decide) ((0, 1, 2, 3), ⟨4, 1⟩) (by decide)

/-! ### Totality of the dihedral phases -/

/-- `Ok`-ness of an outcome. -/
def Outcome.isOk {α : Type} : Outcome α → Bool
  | .ok _ => true
  | _ => false

theorem isOk_exists {α : Type} {o : Outcome α} (h : o.isOk = true) :
    ∃ a, o = .ok a := by
  cases o with
  | ok a => exact ⟨a, rfl⟩
  | err m => simp [Outcome.isOk] at h
  | crash => simp [Outcome.isOk] at h

/-- Well-formedness of an adjacency list over `n` atoms: it is no longer
than the atom list and mentions only in-range atom and row indices. -/
def AdjWF (adj : List (List ℕ)) (n : ℕ) : Prop :=
  adj.length ≤ n ∧ ∀ lst ∈ adj, ∀ x ∈ lst, x < n ∧ x < adj.length

instance (adj : List (List ℕ)) (n : ℕ) : Decidable (AdjWF adj n) := by
  unfold AdjWF
  infer_instance

theorem getAtomType_ok {atoms : List Atom} {i : ℕ} (hi : i < atoms.length)
    (ht : ∀ a ∈ atoms, a.force_field_type.isSome) :
    ∃ t, getAtomType atoms i = .ok t := by
  have hg : atoms[i]? = some atoms[i] := List.getElem?_eq_getElem hi
  have hs := ht atoms[i] (List.getElem_mem hi)
  rcases Option.isSome_iff_exists.mp hs with ⟨t, hteq⟩
  exact ⟨t, by simp [getAtomType, hg, hteq]⟩

theorem properInner_total {params : ForceFieldParamsKeyed} {atoms : List Atom}
    {j k i : ℕ} (lst : List ℕ) (st : DiheState)
    (ht : ∀ a ∈ atoms, a.force_field_type.isSome)
    (hi : i < atoms.length) (hj : j < atoms.length) (hk : k < atoms.length)
    (hl : ∀ x ∈ lst, x < atoms.length) :
    ∃ st', properInner params atoms j k i lst st = .ok st' := by
  induction lst generalizing st with
  | nil => exact ⟨st, rfl⟩
  | cons a rest ih =>
    have ha : a < atoms.length := hl a (List.mem_cons_self a rest)
    have hrest : ∀ x ∈ rest, x < atoms.length :=
      fun x hx => hl x (List.mem_cons_of_mem a hx)
    simp only [properInner]
    split
    · exact ih st hrest
    · split
      · exact ih st hrest
      · split
        · exact ih st hrest
        · rcases getAtomType_ok hi ht with ⟨ti, hti⟩
          rcases getAtomType_ok hj ht with ⟨tj, htj⟩
          rcases getAtomType_ok hk ht with ⟨tk, htk⟩
          rcases getAtomType_ok ha ht with ⟨tl, htl⟩
          rw [hti, htj, htk, htl]
          simp only [obind]
          split
          · exact ih _ hrest
          · exact ih _ hrest

theorem properMid_total {params : ForceFieldParamsKeyed} {atoms : List Atom}
    {adj : List (List ℕ)} {j k : ℕ} (lst : List ℕ) (st : DiheState)
    (ht : ∀ a ∈ atoms, a.force_field_type.isSome)
    (hj : j < atoms.length) (hk : k < atoms.length) (hka : k < adj.length)
    (hl : ∀ x ∈ lst, x < atoms.length)
    (hadj : ∀ l' ∈ adj, ∀ x ∈ l', x < atoms.length) :
    ∃ st', properMid params atoms adj j k lst st = .ok st' := by
  induction lst generalizing st with
  | nil => exact ⟨st, rfl⟩
  | cons a rest ih =>
    have ha : a < atoms.length := hl a (List.mem_cons_self a rest)
    have hrest : ∀ x ∈ rest, x < atoms.length :=
      fun x hx => hl x (List.mem_cons_of_mem a hx)
    simp only [properMid]
    split
    · exact ih st hrest
    · have hg : adj[k]? = some adj[k] := List.getElem?_eq_getElem hka
      have hmem : adj[k] ∈ adj := List.getElem_mem hka
      rcases @properInner_total params atoms j k a adj[k] st ht ha hj hk
        (fun x hx => hadj _ hmem x hx) with ⟨st1, hst1⟩
      rcases ih st1 hrest with ⟨st2, hst2⟩
      exact ⟨st2, by simp [hg, hst1, obind, hst2]⟩

theorem properBonds_total {params : ForceFieldParamsKeyed} {atoms : List Atom}
    {adj : List (List ℕ)} {j : ℕ} {nbrJ : List ℕ} (lst : List ℕ)
    (st : DiheState)
    (ht : ∀ a ∈ atoms, a.force_field_type.isSome)
    (hj : j < atoms.length)
    (hn : ∀ x ∈ nbrJ, x < atoms.length)
    (hl : ∀ x ∈ lst, x < atoms.length ∧ x < adj.length)
    (hadj : ∀ l' ∈ adj, ∀ x ∈ l', x < atoms.length) :
    ∃ st', properBonds params atoms adj j nbrJ lst st = .ok st' := by
  induction lst generalizing st with
  | nil => exact ⟨st, rfl⟩
  | cons a rest ih =>
    have ha := hl a (List.mem_cons_self a rest)
    have hrest : ∀ x ∈ rest, x < atoms.length ∧ x < adj.length :=
      fun x hx => hl x (List.mem_cons_of_mem a hx)
    simp only [properBonds]
    split
    · exact ih st hrest
    · rcases properMid_total nbrJ st ht hj ha.1 ha.2 hn hadj with ⟨st1, hst1⟩
      rw [hst1]
      simp only [obind]
      exact ih st1 hrest

theorem resolvePropers_total {params : ForceFieldParamsKeyed}
    {atoms : List Atom} {adj : List (List ℕ)} (ls : List (List ℕ)) (j0 : ℕ)
    (st : DiheState)
    (ht : ∀ a ∈ atoms, a.force_field_type.isSome)
    (hlen : j0 + ls.length ≤ adj.length)
    (hle : adj.length ≤ atoms.length)
    (hls : ∀ l' ∈ ls, ∀ x ∈ l', x < atoms.length ∧ x < adj.length)
    (hadj : ∀ l' ∈ adj, ∀ x ∈ l', x < atoms.length) :
    ∃ st', resolvePropers params atoms adj ls j0 st = .ok st' := by
  induction ls generalizing j0 st with
  | nil => exact ⟨st, rfl⟩
  | cons a rest ih =>
    have hj0 : j0 < adj.length := by
      have := hlen
      simp only [List.length_cons] at this
      omega
    have ha : ∀ x ∈ a, x < atoms.length ∧ x < adj.length :=
      hls a (List.mem_cons_self a rest)
    have hrest : ∀ l' ∈ rest, ∀ x ∈ l', x < atoms.length ∧ x < adj.length :=
      fun l' hl' => hls l' (List.mem_cons_of_mem a hl')
    simp only [resolvePropers]
    rcases properBonds_total a st ht (Nat.lt_of_lt_of_le hj0 hle)
      (fun x hx => (ha x hx).1) ha hadj with ⟨st1, hst1⟩
    rw [hst1]
    simp only [obind]
    exact ih _ st1 (by simp only [List.length_cons] at hlen; omega) hrest

theorem improperInner_total {params : ForceFieldParamsKeyed}
    {atoms : List Atom} {c : ℕ} (lst : List (ℕ × ℕ × ℕ)) (st : DiheState)
    (ht : ∀ a ∈ atoms, a.force_field_type.isSome)
    (hc : c < atoms.length)
    (hl : ∀ x ∈ lst, x.1 < atoms.length ∧ x.2.1 < atoms.length ∧
      x.2.2 < atoms.length) :
    ∃ st', improperInner params atoms c lst st = .ok st' := by
  induction lst generalizing st with
  | nil => exact ⟨st, rfl⟩
  | cons a rest ih =>
    obtain ⟨i, k, l⟩ := a
    have ha := hl (i, k, l) (List.mem_cons_self _ rest)
    have hrest : ∀ x ∈ rest, x.1 < atoms.length ∧ x.2.1 < atoms.length ∧
        x.2.2 < atoms.length :=
      fun x hx => hl x (List.mem_cons_of_mem _ hx)
    simp only [improperInner]
    split
    · exact ih st hrest
    · rcases getAtomType_ok ha.1 ht with ⟨ti, hti⟩
      rcases getAtomType_ok hc ht with ⟨tc, htc⟩
      rcases getAtomType_ok ha.2.1 ht with ⟨tk, htk⟩
      rcases getAtomType_ok ha.2.2 ht with ⟨tl, htl⟩
      rw [hti, htc, htk, htl]
      simp only [obind]
      split
      · exact ih _ hrest
      · exact ih _ hrest

theorem pairsOf_bound {lst : List ℕ} {n : ℕ} (h : ∀ x ∈ lst, x < n) :
    ∀ q ∈ pairsOf lst, q.1 < n ∧ q.2 < n := by
  induction lst with
  | nil => intro q hq; simp [pairsOf] at hq
  | cons b r2 ih =>
    intro q hq
    simp only [pairsOf, List.mem_append, List.mem_map] at hq
    rcases hq with ⟨y, hy, rfl⟩ | hq
    · exact ⟨h b (List.mem_cons_self b r2), h y (List.mem_cons_of_mem b hy)⟩
    · exact ih (fun y hy => h y (List.mem_cons_of_mem b hy)) q hq

theorem triplesOf_bound {lst : List ℕ} {n : ℕ} (h : ∀ x ∈ lst, x < n) :
    ∀ x ∈ triplesOf lst, x.1 < n ∧ x.2.1 < n ∧ x.2.2 < n := by
  induction lst with
  | nil => intro x hx; simp [triplesOf] at hx
  | cons a rest ih =>
    intro x hx
    have ha : a < n := h a (List.mem_cons_self a rest)
    have hrest : ∀ y ∈ rest, y < n := fun y hy => h y (List.mem_cons_of_mem a hy)
    simp only [triplesOf, List.mem_append, List.mem_map] at hx
    rcases hx with ⟨p, hp, rfl⟩ | hx
    · exact ⟨ha, (pairsOf_bound hrest p hp).1, (pairsOf_bound hrest p hp).2⟩
    · exact ih hrest x hx

theorem resolveImpropers_total {params : ForceFieldParamsKeyed}
    {atoms : List Atom} (ls : List (List ℕ)) (c0 : ℕ) (st : DiheState)
    (ht : ∀ a ∈ atoms, a.force_field_type.isSome)
    (hlen : c0 + ls.length ≤ atoms.length)
    (hls : ∀ l' ∈ ls, ∀ x ∈ l', x < atoms.length) :
    ∃ st', resolveImpropers params atoms ls c0 st = .ok st' := by
  induction ls generalizing c0 st with
  | nil => exact ⟨st, rfl⟩
  | cons a rest ih =>
    have hc0 : c0 < atoms.length := by
      simp only [List.length_cons] at hlen
      omega
    have ha : ∀ x ∈ a, x < atoms.length := hls a (List.mem_cons_self a rest)
    have hrest : ∀ l' ∈ rest, ∀ x ∈ l', x < atoms.length :=
      fun l' hl' => hls l' (List.mem_cons_of_mem a hl')
    simp only [resolveImpropers]
    split
    · exact ih (c0 + 1) st (by simp only [List.length_cons] at hlen; omega) hrest
    · rcases improperInner_total (triplesOf a) st ht hc0 (triplesOf_bound ha)
        with ⟨st1, hst1⟩
      rw [hst1]
      simp only [obind]
      exact ih (c0 + 1) st1 (by simp only [List.length_cons] at hlen; omega) hrest

theorem resolveMassVdw_typed {params : ForceFieldParamsKeyed} :
    ∀ (atoms : List Atom) (i0 : ℕ)
      {mv : List (ℕ × MassParams) × List (ℕ × VdwParams)},
      resolveMassVdw params atoms i0 = .ok mv →
      ∀ a ∈ atoms, a.force_field_type.isSome := by
  intro atoms
  induction atoms with
  | nil =>
    intro i0 mv h a ha
    simp at ha
  | cons b rest ih =>
    intro i0 mv h a ha
    cases hb : b.force_field_type with
    | none =>
      simp only [resolveMassVdw, hb] at h
      exact Outcome.noConfusion h
    | some t =>
      simp only [resolveMassVdw, hb] at h
      rcases obind_ok h with ⟨m, hm, h⟩
      rcases obind_ok h with ⟨v, hv, h⟩
      rcases obind_ok h with ⟨mv2, hmv2, h⟩
      rcases List.mem_cons.mp ha with rfl | ha2
      · simp [hb]
      · exact ih _ hmv2 a ha2

/-- The permissive tables with every dihedral lookup missing. -/
def noDiheParams : ForceFieldParamsKeyed :=
  { mass := fun _ => some ⟨"", 12, none⟩
    van_der_waals := fun _ => some ⟨"", 1, 1⟩
    bond := fun _ => some ⟨100, 1⟩
    angle := fun _ => some ⟨50, 2⟩
    dihedral := fun _ _ => none }

/-- Tables on which the type label "CX" (and the mass-fallback key "C")
have no mass entry, and no dihedral entry exists at all. -/
def cxParams : ForceFieldParamsKeyed :=
  { mass := fun t =>
      if t = "CX" then none else if t = "C" then none else some ⟨"", 12, none⟩
    van_der_waals := fun _ => some ⟨"", 1, 1⟩
    bond := fun _ => some ⟨100, 1⟩
    angle := fun _ => some ⟨50, 2⟩
    dihedral := fun _ _ => none }

/-- The chain atoms plus an isolated fifth atom typed "CX". -/
def cxAtoms : List Atom := chainAtoms ++ [⟨some "CX"⟩]

/-- C9 counterexample.  On `cxAtoms`/`chainBonds`/`chainAdj` every atom has
a type label, every bond and angle lookup succeeds, and the chain's proper
dihedral 4-tuple has no table entry — the claim then promises a success
result with the term omitted — yet `ForceFieldParamsIndexed::new` does not
succeed: the isolated "CX" atom's missing mass entry sends the mass
resolver into the "C"-fallback `unwrap()`, which panics because the
fallback key "C" is also absent (src/dynamics/prep.rs:95). -/
theorem c9_counterexample :
    (∀ a ∈ cxAtoms, a.force_field_type.isSome) ∧
    (∀ q : String × String, (mergeParams cxParams none).bond q = some ⟨100, 1⟩) ∧
    (∀ q : String × String × String,
      (mergeParams cxParams none).angle q = some ⟨50, 2⟩) ∧
    (mergeParams cxParams none).dihedral ("t0", "t1", "t2", "t3") true = none ∧
    ffIndexedNew cxParams none cxAtoms chainBonds chainAdj = .crash :=
  ⟨by decide, fun _ => rfl, fun _ => rfl, rfl, by decide⟩

/-- C9 (amended).  A missing dihedral parameter never causes
`ForceFieldParamsIndexed::new` to fail: provided all atoms carry type
labels and the per-atom mass/van-der-Waals phase, the bond phase and the
angle phase all complete (so no fallback-table panic and no bond/angle
error), resolution always reaches a success result, whatever dihedral
lookups miss — the active code settles the spec's open dihedral-policy
question as skip, not hard error.  The second conjunct runs the chain
topology with every dihedral lookup missing: the call still succeeds and
the indexed dihedral table is empty (the terms are silently omitted). -/
theorem c9_missing_dihedral_skipped :
    (∀ (pg : ForceFieldParamsKeyed) (ps : Option ForceFieldParamsKeyed)
      (atoms : List Atom) (bonds : List Bond) (adj : List (List ℕ)),
      (resolveMassVdw (mergeParams pg ps) atoms 0).isOk = true →
      (resolveBonds (mergeParams pg ps) atoms bonds []).isOk = true →
      (resolveAngles (mergeParams pg ps) atoms adj 0 []).isOk = true →
      AdjWF adj atoms.length →
      ∃ r, ffIndexedNew pg ps atoms bonds adj = .ok r) ∧
    (∃ r, ffIndexedNew noDiheParams none chainAtoms chainBonds chainAdj = .ok r ∧
      r.dihedral = []) := by
  constructor
  · intro pg ps atoms bonds adj hm hb ha hwf
    rcases isOk_exists hm with ⟨mv, hmv⟩
    rcases isOk_exists hb with ⟨bl, hbl⟩
    rcases isOk_exists ha with ⟨al, hal⟩
    have ht : ∀ a ∈ atoms, a.force_field_type.isSome :=
      resolveMassVdw_typed atoms 0 hmv
    rcases @resolvePropers_total (mergeParams pg ps) atoms adj adj 0 ([], []) ht
      (by have := hwf.1; omega) hwf.1 hwf.2
      (fun l' hl' x hx => (hwf.2 l' hl' x hx).1) with ⟨st1, hst1⟩
    rcases @resolveImpropers_total (mergeParams pg ps) atoms adj 0 st1 ht
      (by have := hwf.1; omega)
      (fun l' hl' x hx => (hwf.2 l' hl' x hx).1) with ⟨st2, hst2⟩
    refine ⟨⟨mv.1, mv.2, bl, al, st2.2⟩, ?_⟩
    simp [ffIndexedNew, afterMass, hmv, hbl, hal, hst1, hst2, obind]
  · exact ⟨okOr (ffIndexedNew noDiheParams none chainAtoms chainBonds chainAdj),
      by decide, by decide⟩

theorem c9_missing_dihedral_skipped_witness :
    ∃ r, ffIndexedNew permissiveParams none chainAtoms chainBonds chainAdj =
      .ok r :=
  c9_missing_dihedral_skipped.1 permissiveParams none chainAtoms chainBonds
    chainAdj (by decide) (by decide) (by decide) (by decide)

/-! ### Mass / van-der-Waals fallback -/

/-- The merged table carries the generic fallback entries the per-atom
resolver `unwrap()`s: mass keys "C"/"N"/"O" and van-der-Waals keys
"C*"/"N"/"O". -/
def FallbackOK (params : ForceFieldParamsKeyed) : Prop :=
  (params.mass "C").isSome ∧ (params.mass "N").isSome ∧
    (params.mass "O").isSome ∧ (params.van_der_waals "C*").isSome ∧
    (params.van_der_waals "N").isSome ∧ (params.van_der_waals "O").isSome

instance (params : ForceFieldParamsKeyed) : Decidable (FallbackOK params) := by
  unfold FallbackOK
  infer_instance

theorem resolveMass_total {params : ForceFieldParamsKeyed}
    (hf : FallbackOK params) (t : String) :
    ∃ m, resolveMass params t = .ok m := by
  cases hm : params.mass t with
  | some m => exact ⟨m, by simp [resolveMass, hm]⟩
  | none =>
    by_cases hc : strStartsWith t "C" = true
    · rcases Option.isSome_iff_exists.mp hf.1 with ⟨m, hm2⟩
      exact ⟨m, by simp [resolveMass, hm, hc, hm2]⟩
    · by_cases hn : strStartsWith t "N" = true
      · rcases Option.isSome_iff_exists.mp hf.2.1 with ⟨m, hm2⟩
        exact ⟨m, by simp [resolveMass, hm, hc, hn, hm2]⟩
      · by_cases ho : strStartsWith t "O" = true
        · rcases Option.isSome_iff_exists.mp hf.2.2.1 with ⟨m, hm2⟩
          exact ⟨m, by simp [resolveMass, hm, hc, hn, ho, hm2]⟩
        · exact ⟨⟨"", 12001/1000, none⟩,
            by simp [resolveMass, hm, hc, hn, ho]⟩

theorem resolveVdw_total {params : ForceFieldParamsKeyed}
    (hf : FallbackOK params) (t : String) :
    ∃ v, resolveVdw params t = .ok v := by
  cases hm : params.van_der_waals t with
  | some v => exact ⟨v, by simp [resolveVdw, hm]⟩
  | none =>
    by_cases hc : strStartsWith t "C" = true
    · rcases Option.isSome_iff_exists.mp hf.2.2.2.1 with ⟨v, hv2⟩
      exact ⟨v, by simp [resolveVdw, hm, hc, hv2]⟩
    · by_cases hn : strStartsWith t "N" = true
      · rcases Option.isSome_iff_exists.mp hf.2.2.2.2.1 with ⟨v, hv2⟩
        exact ⟨v, by simp [resolveVdw, hm, hc, hn, hv2]⟩
      · by_cases ho : strStartsWith t "O" = true
        · rcases Option.isSome_iff_exists.mp hf.2.2.2.2.2 with ⟨v, hv2⟩
          exact ⟨v, by simp [resolveVdw, hm, hc, hn, ho, hv2]⟩
        · exact ⟨⟨"", 0, 0⟩, by simp [resolveVdw, hm, hc, hn, ho]⟩

theorem resolveMassVdw_total {params : ForceFieldParamsKeyed}
    (hf : FallbackOK params) :
    ∀ (atoms : List Atom) (i0 : ℕ),
      (∀ a ∈ atoms, a.force_field_type.isSome) →
      ∃ mv, resolveMassVdw params atoms i0 = .ok mv := by
  intro atoms
  induction atoms with
  | nil => exact fun i0 _ => ⟨([], []), rfl⟩
  | cons b rest ih =>
    intro i0 hty
    have hb := hty b (List.mem_cons_self b rest)
    rcases Option.isSome_iff_exists.mp hb with ⟨t, hbt⟩
    rcases resolveMass_total hf t with ⟨m, hm⟩
    rcases resolveVdw_total hf t with ⟨v, hv⟩
    rcases ih (i0 + 1) (fun a ha => hty a (List.mem_cons_of_mem b ha))
      with ⟨mv2, hmv2⟩
    exact ⟨((i0, m) :: mv2.1, (i0, v) :: mv2.2),
      by simp [resolveMassVdw, hbt, hm, hv, hmv2, obind]⟩

theorem resolveMassVdw_mass_mem {params : ForceFieldParamsKeyed} :
    ∀ (atoms : List Atom) (i0 : ℕ)
      {mv : List (ℕ × MassParams) × List (ℕ × VdwParams)},
      resolveMassVdw params atoms i0 = .ok mv →
      ∀ (n : ℕ) (a : Atom) (t : String) (m : MassParams),
        atoms.get? n = some a → a.force_field_type = some t →
        resolveMass params t = .ok m → (i0 + n, m) ∈ mv.1 := by
  intro atoms
  induction atoms with
  | nil =>
    intro i0 mv h n a t m hg
    simp at hg
  | cons b rest ih =>
    intro i0 mv h n a t m hg hty hrm
    cases hb : b.force_field_type with
    | none =>
      simp only [resolveMassVdw, hb] at h
      exact Outcome.noConfusion h
    | some tb =>
      simp only [resolveMassVdw, hb] at h
      rcases obind_ok h with ⟨m0, hm0, h⟩
      rcases obind_ok h with ⟨v0, hv0, h⟩
      rcases obind_ok h with ⟨mv2, hmv2, h⟩
      cases h
      cases n with
      | zero =>
        have hba : b = a := by simpa using hg
        subst hba
        have htt : tb = t := by
          rw [hb] at hty
          exact Option.some.inj hty
        subst htt
        have hmm : m0 = m := by
          rw [hm0] at hrm
          exact Outcome.ok.inj hrm
        subst hmm
        simp
      | succ n2 =>
        have hg2 : rest.get? n2 = some a := by simpa using hg
        have := ih (i0 + 1) hmv2 n2 a t m hg2 hty hrm
        have harith : i0 + 1 + n2 = i0 + (n2 + 1) := by omega
        rw [harith] at this
        exact List.mem_cons_of_mem _ this

theorem resolveMassVdw_vdw_mem {params : ForceFieldParamsKeyed} :
    ∀ (atoms : List Atom) (i0 : ℕ)
      {mv : List (ℕ × MassParams) × List (ℕ × VdwParams)},
      resolveMassVdw params atoms i0 = .ok mv →
      ∀ (n : ℕ) (a : Atom) (t : String) (v : VdwParams),
        atoms.get? n = some a → a.force_field_type = some t →
        resolveVdw params t = .ok v → (i0 + n, v) ∈ mv.2 := by
  intro atoms
  induction atoms with
  | nil =>
    intro i0 mv h n a t v hg
    simp at hg
  | cons b rest ih =>
    intro i0 mv h n a t v hg hty hrv
    cases hb : b.force_field_type with
    | none =>
      simp only [resolveMassVdw, hb] at h
      exact Outcome.noConfusion h
    | some tb =>
      simp only [resolveMassVdw, hb] at h
      rcases obind_ok h with ⟨m0, hm0, h⟩
      rcases obind_ok h with ⟨v0, hv0, h⟩
      rcases obind_ok h with ⟨mv2, hmv2, h⟩
      cases h
      cases n with
      | zero =>
        have hba : b = a := by simpa using hg
        subst hba
        have htt : tb = t := by
          rw [hb] at hty
          exact Option.some.inj hty
        subst htt
        have hvv : v0 = v := by
          rw [hv0] at hrv
          exact Outcome.ok.inj hrv
        subst hvv
        simp
      | succ n2 =>
        have hg2 : rest.get? n2 = some a := by simpa using hg
        have := ih (i0 + 1) hmv2 n2 a t v hg2 hty hrv
        have harith : i0 + 1 + n2 = i0 + (n2 + 1) := by omega
        rw [harith] at this
        exact List.mem_cons_of_mem _ this

/-- C4 counterexample.  One atom whose type label "CX" is present but
absent from the merged mass table: the claim promises the call never
fails, yet because the generic fallback key "C" is also absent the
resolver panics on `unwrap()` (src/dynamics/prep.rs:95) — the call fails
without even producing an error value. -/
theorem c4_counterexample :
    (mergeParams cxParams none).mass "CX" = none ∧
    ffIndexedNew cxParams none [⟨some "CX"⟩] [] [] = .crash :=
  ⟨by decide, by decide⟩

/-- C4 (amended).  Provided the merged table carries the generic fallback
entries (mass keys "C"/"N"/"O"; van-der-Waals keys "C*"/"N"/"O"), a
missing mass or van-der-Waals parameter never causes
`ForceFieldParamsIndexed::new` to fail at the per-atom phase: the phase
completes, `new` proceeds to the bonded phases, and an atom whose label
misses the table and matches no C/N/O prefix receives the fixed
placeholders (mass 12.001; sigma = 0 and eps = 0, i.e. zero
van-der-Waals interaction). -/
theorem c4_mass_vdw_fallback (pg : ForceFieldParamsKeyed)
    (ps : Option ForceFieldParamsKeyed) (atoms : List Atom)
    (bonds : List Bond) (adj : List (List ℕ))
    (hty : ∀ a ∈ atoms, a.force_field_type.isSome)
    (hf : FallbackOK (mergeParams pg ps)) :
    ∃ mv, resolveMassVdw (mergeParams pg ps) atoms 0 = .ok mv ∧
      ffIndexedNew pg ps atoms bonds adj =
        afterMass (mergeParams pg ps) atoms bonds adj mv ∧
      (∀ (n : ℕ) (a : Atom) (t : String), atoms.get? n = some a →
        a.force_field_type = some t → (mergeParams pg ps).mass t = none →
        strStartsWith t "C" = false → strStartsWith t "N" = false →
        strStartsWith t "O" = false →
        (n, (⟨"", 12001/1000, none⟩ : MassParams)) ∈ mv.1) ∧
      (∀ (n : ℕ) (a : Atom) (t : String), atoms.get? n = some a →
        a.force_field_type = some t →
        (mergeParams pg ps).van_der_waals t = none →
        strStartsWith t "C" = false → strStartsWith t "N" = false →
        strStartsWith t "O" = false →
        (n, (⟨"", 0, 0⟩ : VdwParams)) ∈ mv.2) := by
  rcases resolveMassVdw_total hf atoms 0 hty with ⟨mv, hmv⟩
  refine ⟨mv, hmv, by simp [ffIndexedNew, hmv, obind], ?_, ?_⟩
  · intro n a t hg ht hmiss hc hn ho
    have hm : resolveMass (mergeParams pg ps) t = .ok ⟨"", 12001/1000, none⟩ := by
      simp [resolveMass, hmiss, hc, hn, ho]
    have := resolveMassVdw_mass_mem atoms 0 hmv n a t _ hg ht hm
    simpa using this
  · intro n a t hg ht hmiss hc hn ho
    have hv : resolveVdw (mergeParams pg ps) t = .ok ⟨"", 0, 0⟩ := by
      simp [resolveVdw, hmiss, hc, hn, ho]
    have := resolveMassVdw_vdw_mem atoms 0 hmv n a t _ hg ht hv
    simpa using this

/-- Tables where the label "XQ" has neither a mass nor a van-der-Waals
entry, while all generic fallback entries exist. -/
def fbParams : ForceFieldParamsKeyed :=
  { mass := fun t => if t = "XQ" then none else some ⟨"", 12, none⟩
    van_der_waals := fun t => if t = "XQ" then none else some ⟨"", 1, 1⟩
    bond := fun _ => some ⟨100, 1⟩
    angle := fun _ => some ⟨50, 2⟩
    dihedral := fun _ _ => some ⟨4, 2⟩ }

theorem c4_mass_vdw_fallback_witness :
    ∃ mv, resolveMassVdw (mergeParams fbParams none) [⟨some "XQ"⟩] 0 = .ok mv ∧
      ffIndexedNew fbParams none [⟨some "XQ"⟩] [] [] =
        afterMass (mergeParams fbParams none) [⟨some "XQ"⟩] [] [] mv ∧
      (∀ (n : ℕ) (a : Atom) (t : String), [(⟨some "XQ"⟩ : Atom)].get? n = some a →
        a.force_field_type = some t →
        (mergeParams fbParams none).mass t = none →
        strStartsWith t "C" = false → strStartsWith t "N" = false →
        strStartsWith t "O" = false →
        (n, (⟨"", 12001/1000, none⟩ : MassParams)) ∈ mv.1) ∧
      (∀ (n : ℕ) (a : Atom) (t : String), [(⟨some "XQ"⟩ : Atom)].get? n = some a →
        a.force_field_type = some t →
        (mergeParams fbParams none).van_der_waals t = none →
        strStartsWith t "C" = false → strStartsWith t "N" = false →
        strStartsWith t "O" = false →
        (n, (⟨"", 0, 0⟩ : VdwParams)) ∈ mv.2) :=
  c4_mass_vdw_fallback fbParams none [⟨some "XQ"⟩] [] [] (by decide) (by decide)

/-! ### Hard errors for missing bond / angle parameters -/

theorem getAtomType_not_crash {atoms : List Atom} {i : ℕ}
    (hi : i < atoms.length) : getAtomType atoms i ≠ .crash := by
  have hg : atoms[i]? = some atoms[i] := List.getElem?_eq_getElem hi
  cases hft : atoms[i].force_field_type <;> simp [getAtomType, hg, hft]

theorem resolveBonds_not_crash {params : ForceFieldParamsKeyed}
    {atoms : List Atom} :
    ∀ (bonds : List Bond) (acc : List ((ℕ × ℕ) × BondParams)),
      (∀ b ∈ bonds, b.atom_0 < atoms.length ∧ b.atom_1 < atoms.length) →
      resolveBonds params atoms bonds acc ≠ .crash := by
  intro bonds
  induction bonds with
  | nil =>
    intro acc hidx h
    simp only [resolveBonds] at h
    exact Outcome.noConfusion h
  | cons b rest ih =>
    intro acc hidx h
    have hb := hidx b (List.mem_cons_self b rest)
    have hrest := fun b' hb' => hidx b' (List.mem_cons_of_mem b hb')
    simp only [resolveBonds] at h
    cases h0 : getAtomType atoms b.atom_0 with
    | crash => exact getAtomType_not_crash hb.1 h0
    | err m => rw [h0] at h; simp [obind] at h
    | ok ti =>
      rw [h0] at h
      simp only [obind] at h
      cases h1 : getAtomType atoms b.atom_1 with
      | crash => exact getAtomType_not_crash hb.2 h1
      | err m => rw [h1] at h; simp [obind] at h
      | ok tj =>
        rw [h1] at h
        simp only [obind] at h
        cases hlk : (params.bond (ti, tj)).orElse fun _ => params.bond (tj, ti) with
        | none => rw [hlk] at h; simp at h
        | some d =>
          rw [hlk] at h
          exact ih _ hrest h

theorem resolveBonds_err {params : ForceFieldParamsKeyed} {atoms : List Atom} :
    ∀ (bonds : List Bond) (acc : List ((ℕ × ℕ) × BondParams)),
      (∀ b ∈ bonds, b.atom_0 < atoms.length ∧ b.atom_1 < atoms.length) →
      (∃ b ∈ bonds, ∃ ti tj, getAtomType atoms b.atom_0 = .ok ti ∧
        getAtomType atoms b.atom_1 = .ok tj ∧
        params.bond (ti, tj) = none ∧ params.bond (tj, ti) = none) →
      ∃ msg, resolveBonds params atoms bonds acc = .err msg := by
  intro bonds
  induction bonds with
  | nil =>
    intro acc hidx hfail
    rcases hfail with ⟨b, hb, -⟩
    simp at hb
  | cons b rest ih =>
    intro acc hidx hfail
    have hbnd := hidx b (List.mem_cons_self b rest)
    have hrest := fun b' hb' => hidx b' (List.mem_cons_of_mem b hb')
    cases h0 : getAtomType atoms b.atom_0 with
    | crash => exact absurd h0 (getAtomType_not_crash hbnd.1)
    | err m => exact ⟨m, by simp [resolveBonds, h0, obind]⟩
    | ok ti =>
      cases h1 : getAtomType atoms b.atom_1 with
      | crash => exact absurd h1 (getAtomType_not_crash hbnd.2)
      | err m => exact ⟨m, by simp [resolveBonds, h0, h1, obind]⟩
      | ok tj =>
        cases hlk : (params.bond (ti, tj)).orElse fun _ => params.bond (tj, ti) with
        | none =>
          exact ⟨"Missing bond parameters for " ++ ti ++ "-" ++ tj,
            by simp [resolveBonds, h0, h1, hlk, obind]⟩
        | some d =>
          have hfail' : ∃ b' ∈ rest, ∃ ti' tj',
              getAtomType atoms b'.atom_0 = .ok ti' ∧
              getAtomType atoms b'.atom_1 = .ok tj' ∧
              params.bond (ti', tj') = none ∧ params.bond (tj', ti') = none := by
            rcases hfail with ⟨b', hb', ti', tj', h0', h1', hn1, hn2⟩
            rcases List.mem_cons.mp hb' with rfl | hmem
            · rw [h0] at h0'
              rw [h1] at h1'
              cases Outcome.ok.inj h0'
              cases Outcome.ok.inj h1'
              rw [hn1, hn2] at hlk
              simp [Option.orElse] at hlk
            · exact ⟨b', hmem, ti', tj', h0', h1', hn1, hn2⟩
          rcases ih (upsert acc (min b.atom_0 b.atom_1, max b.atom_0 b.atom_1) d)
            hrest hfail' with ⟨msg, hmsg⟩
          exact ⟨msg, by simp [resolveBonds, h0, h1, hlk, obind, hmsg]⟩

theorem pairsOf_short {l : List ℕ} (h : l.length < 2) : pairsOf l = [] := by
  match l, h with
  | [], _ => rfl
  | [x], _ => rfl

theorem anglesForCenter_not_crash {params : ForceFieldParamsKeyed}
    {atoms : List Atom} {center : ℕ} (hc : center < atoms.length) :
    ∀ (ps : List (ℕ × ℕ)) (acc : List ((ℕ × ℕ × ℕ) × AngleParams)),
      (∀ p ∈ ps, p.1 < atoms.length ∧ p.2 < atoms.length) →
      anglesForCenter params atoms center ps acc ≠ .crash := by
  intro ps
  induction ps with
  | nil =>
    intro acc hb h
    simp only [anglesForCenter] at h
    exact Outcome.noConfusion h
  | cons p rest ih =>
    intro acc hb h
    obtain ⟨i, k⟩ := p
    have hp := hb (i, k) (List.mem_cons_self _ rest)
    have hrest := fun p' hp' => hb p' (List.mem_cons_of_mem _ hp')
    simp only [anglesForCenter] at h
    cases h0 : getAtomType atoms i with
    | crash => exact getAtomType_not_crash hp.1 h0
    | err m => rw [h0] at h; simp [obind] at h
    | ok t0 =>
      rw [h0] at h
      simp only [obind] at h
      cases h1 : getAtomType atoms center with
      | crash => exact getAtomType_not_crash hc h1
      | err m => rw [h1] at h; simp [obind] at h
      | ok t1 =>
        rw [h1] at h
        simp only [obind] at h
        cases h2 : getAtomType atoms k with
        | crash => exact getAtomType_not_crash hp.2 h2
        | err m => rw [h2] at h; simp [obind] at h
        | ok t2 =>
          rw [h2] at h
          simp only [obind] at h
          cases hlk : (params.angle (t0, t1, t2)).orElse
              fun _ => params.angle (t2, t1, t0) with
          | none => rw [hlk] at h; simp at h
          | some d =>
            rw [hlk] at h
            exact ih _ hrest h

theorem anglesForCenter_err {params : ForceFieldParamsKeyed}
    {atoms : List Atom} {center : ℕ} (hc : center < atoms.length) :
    ∀ (ps : List (ℕ × ℕ)) (acc : List ((ℕ × ℕ × ℕ) × AngleParams)),
      (∀ p ∈ ps, p.1 < atoms.length ∧ p.2 < atoms.length) →
      (∃ p ∈ ps, ∃ t0 t1 t2, getAtomType atoms p.1 = .ok t0 ∧
        getAtomType atoms center = .ok t1 ∧ getAtomType atoms p.2 = .ok t2 ∧
        params.angle (t0, t1, t2) = none ∧ params.angle (t2, t1, t0) = none) →
      ∃ msg, anglesForCenter params atoms center ps acc = .err msg := by
  intro ps
  induction ps with
  | nil =>
    intro acc hb hfail
    rcases hfail with ⟨p, hp, -⟩
    simp at hp
  | cons p rest ih =>
    intro acc hb hfail
    obtain ⟨i, k⟩ := p
    have hpb := hb (i, k) (List.mem_cons_self _ rest)
    have hrest := fun p' hp' => hb p' (List.mem_cons_of_mem _ hp')
    cases h0 : getAtomType atoms i with
    | crash => exact absurd h0 (getAtomType_not_crash hpb.1)
    | err m => exact ⟨m, by simp [anglesForCenter, h0, obind]⟩
    | ok t0 =>
      cases h1 : getAtomType atoms center with
      | crash => exact absurd h1 (getAtomType_not_crash hc)
      | err m => exact ⟨m, by simp [anglesForCenter, h0, h1, obind]⟩
      | ok t1 =>
        cases h2 : getAtomType atoms k with
        | crash => exact absurd h2 (getAtomType_not_crash hpb.2)
        | err m => exact ⟨m, by simp [anglesForCenter, h0, h1, h2, obind]⟩
        | ok t2 =>
          cases hlk : (params.angle (t0, t1, t2)).orElse
              fun _ => params.angle (t2, t1, t0) with
          | none =>
            exact ⟨"Missing valence angle parameters for " ++ t0 ++ "-" ++ t1
              ++ "-" ++ t2, by simp [anglesForCenter, h0, h1, h2, hlk, obind]⟩
          | some d =>
            have hfail' : ∃ p ∈ rest, ∃ t0' t1' t2',
                getAtomType atoms p.1 = .ok t0' ∧
                getAtomType atoms center = .ok t1' ∧
                getAtomType atoms p.2 = .ok t2' ∧
                params.angle (t0', t1', t2') = none ∧
                params.angle (t2', t1', t0') = none := by
              rcases hfail with ⟨p', hp', t0', t1', t2', h0', h1', h2', hn1, hn2⟩
              rcases List.mem_cons.mp hp' with rfl | hmem
              · rw [h0] at h0'
                rw [h1] at h1'
                rw [h2] at h2'
                cases Outcome.ok.inj h0'
                cases Outcome.ok.inj h1'
                cases Outcome.ok.inj h2'
                rw [hn1, hn2] at hlk
                simp [Option.orElse] at hlk
              · exact ⟨p', hmem, t0', t1', t2', h0', h1', h2', hn1, hn2⟩
            rcases ih (upsert acc (i, center, k) d) hrest hfail' with ⟨msg, hmsg⟩
            exact ⟨msg, by simp [anglesForCenter, h0, h1, h2, hlk, obind, hmsg]⟩

theorem resolveAngles_not_crash {params : ForceFieldParamsKeyed}
    {atoms : List Atom} :
    ∀ (ls : List (List ℕ)) (c0 : ℕ) (acc : List ((ℕ × ℕ × ℕ) × AngleParams)),
      c0 + ls.length ≤ atoms.length →
      (∀ neigh ∈ ls, ∀ x ∈ neigh, x < atoms.length) →
      resolveAngles params atoms ls c0 acc ≠ .crash := by
  intro ls
  induction ls with
  | nil =>
    intro c0 acc hlen hmem h
    simp only [resolveAngles] at h
    exact Outcome.noConfusion h
  | cons neigh rest ih =>
    intro c0 acc hlen hmem h
    have hc : c0 < atoms.length := by
      simp only [List.length_cons] at hlen
      omega
    have hlen' : c0 + 1 + rest.length ≤ atoms.length := by
      simp only [List.length_cons] at hlen
      omega
    have hmem' := fun n hn => hmem n (List.mem_cons_of_mem neigh hn)
    have hnb := hmem neigh (List.mem_cons_self neigh rest)
    simp only [resolveAngles] at h
    split at h
    · exact ih (c0 + 1) acc hlen' hmem' h
    · cases hac : anglesForCenter params atoms c0 (pairsOf neigh) acc with
      | crash => exact anglesForCenter_not_crash hc _ _ (pairsOf_bound hnb) hac
      | err m => rw [hac] at h; simp [obind] at h
      | ok acc' =>
        rw [hac] at h
        simp only [obind] at h
        exact ih (c0 + 1) acc' hlen' hmem' h

theorem resolveAngles_err {params : ForceFieldParamsKeyed} {atoms : List Atom} :
    ∀ (ls : List (List ℕ)) (c0 : ℕ) (acc : List ((ℕ × ℕ × ℕ) × AngleParams)),
      c0 + ls.length ≤ atoms.length →
      (∀ neigh ∈ ls, ∀ x ∈ neigh, x < atoms.length) →
      (∃ n neigh, ls.get? n = some neigh ∧ ∃ p ∈ pairsOf neigh,
        ∃ t0 t1 t2, getAtomType atoms p.1 = .ok t0 ∧
          getAtomType atoms (c0 + n) = .ok t1 ∧
          getAtomType atoms p.2 = .ok t2 ∧
          params.angle (t0, t1, t2) = none ∧
          params.angle (t2, t1, t0) = none) →
      ∃ msg, resolveAngles params atoms ls c0 acc = .err msg := by
  intro ls
  induction ls with
  | nil =>
    intro c0 acc hlen hmem hfail
    rcases hfail with ⟨n, neigh, hg, -⟩
    simp at hg
  | cons nb rest ih =>
    intro c0 acc hlen hmem hfail
    have hc : c0 < atoms.length := by
      simp only [List.length_cons] at hlen
      omega
    have hlen' : c0 + 1 + rest.length ≤ atoms.length := by
      simp only [List.length_cons] at hlen
      omega
    have hmem' := fun n hn => hmem n (List.mem_cons_of_mem nb hn)
    have hnb := hmem nb (List.mem_cons_self nb rest)
    by_cases hshort : nb.length < 2
    · have hfail' : ∃ n neigh, rest.get? n = some neigh ∧ ∃ p ∈ pairsOf neigh,
          ∃ t0 t1 t2, getAtomType atoms p.1 = .ok t0 ∧
            getAtomType atoms (c0 + 1 + n) = .ok t1 ∧
            getAtomType atoms p.2 = .ok t2 ∧
            params.angle (t0, t1, t2) = none ∧
            params.angle (t2, t1, t0) = none := by
        rcases hfail with ⟨n, neigh, hg, p, hp, rest'⟩
        cases n with
        | zero =>
          have : neigh = nb := by simpa using hg.symm
          subst this
          rw [pairsOf_short hshort] at hp
          simp at hp
        | succ n2 =>
          refine ⟨n2, neigh, by simpa using hg, p, hp, ?_⟩
          have harith : c0 + 1 + n2 = c0 + (n2 + 1) := by omega
          rw [harith]
          exact rest'
      rcases ih (c0 + 1) acc hlen' hmem' hfail' with ⟨msg, hmsg⟩
      exact ⟨msg, by simp [resolveAngles, hshort, hmsg]⟩
    · cases hac : anglesForCenter params atoms c0 (pairsOf nb) acc with
      | crash =>
        exact absurd hac (anglesForCenter_not_crash hc _ _ (pairsOf_bound hnb))
      | err m => exact ⟨m, by simp [resolveAngles, hshort, hac, obind]⟩
      | ok acc' =>
        have hfail' : ∃ n neigh, rest.get? n = some neigh ∧ ∃ p ∈ pairsOf neigh,
            ∃ t0 t1 t2, getAtomType atoms p.1 = .ok t0 ∧
              getAtomType atoms (c0 + 1 + n) = .ok t1 ∧
              getAtomType atoms p.2 = .ok t2 ∧
              params.angle (t0, t1, t2) = none ∧
              params.angle (t2, t1, t0) = none := by
          rcases hfail with ⟨n, neigh, hg, p, hp, t0, t1, t2, h0, h1, h2, hn1, hn2⟩
          cases n with
          | zero =>
            have : nb = neigh := by simpa using hg
            subst this
            rcases anglesForCenter_err hc (pairsOf nb) acc (pairsOf_bound hnb)
              ⟨p, hp, t0, t1, t2, h0, by simpa using h1, h2, hn1, hn2⟩
              with ⟨msg, hmsg⟩
            rw [hmsg] at hac
            exact Outcome.noConfusion hac
          | succ n2 =>
            refine ⟨n2, neigh, by simpa using hg, p, hp, t0, t1, t2, h0, ?_, h2,
              hn1, hn2⟩
            have harith : c0 + 1 + n2 = c0 + (n2 + 1) := by omega
            rw [harith]
            exact h1
        rcases ih (c0 + 1) acc' hlen' hmem' hfail' with ⟨msg, hmsg⟩
        exact ⟨msg, by simp [resolveAngles, hshort, hac, obind, hmsg]⟩

/-- C5.  Bond and angle parameter lookup tries both atom-type orders, and
when neither order is in the merged table the entire resolution fails with
an explicit error value: part one for any bond edge whose type pair is
absent in both orders, part two for any angle term (a center with a pair
of neighbours) whose type triple is absent in both orders.  (Atom indices
are assumed in range — out-of-range indices are a panic, not an error —
and the per-atom phase is assumed to complete.) -/
theorem c5_missing_bond_angle_fatal :
    (∀ (pg : ForceFieldParamsKeyed) (ps : Option ForceFieldParamsKeyed)
      (atoms : List Atom) (bonds : List Bond) (adj : List (List ℕ)),
      (resolveMassVdw (mergeParams pg ps) atoms 0).isOk = true →
      (∀ b ∈ bonds, b.atom_0 < atoms.length ∧ b.atom_1 < atoms.length) →
      (∃ b ∈ bonds, ∃ ti tj, getAtomType atoms b.atom_0 = .ok ti ∧
        getAtomType atoms b.atom_1 = .ok tj ∧
        (mergeParams pg ps).bond (ti, tj) = none ∧
        (mergeParams pg ps).bond (tj, ti) = none) →
      ∃ msg, ffIndexedNew pg ps atoms bonds adj = .err msg) ∧
    (∀ (pg : ForceFieldParamsKeyed) (ps : Option ForceFieldParamsKeyed)
      (atoms : List Atom) (bonds : List Bond) (adj : List (List ℕ)),
      (resolveMassVdw (mergeParams pg ps) atoms 0).isOk = true →
      (∀ b ∈ bonds, b.atom_0 < atoms.length ∧ b.atom_1 < atoms.length) →
      adj.length ≤ atoms.length →
      (∀ neigh ∈ adj, ∀ x ∈ neigh, x < atoms.length) →
      (∃ n neigh, adj.get? n = some neigh ∧ ∃ p ∈ pairsOf neigh,
        ∃ t0 t1 t2, getAtomType atoms p.1 = .ok t0 ∧
          getAtomType atoms n = .ok t1 ∧ getAtomType atoms p.2 = .ok t2 ∧
          (mergeParams pg ps).angle (t0, t1, t2) = none ∧
          (mergeParams pg ps).angle (t2, t1, t0) = none) →
      ∃ msg, ffIndexedNew pg ps atoms bonds adj = .err msg) := by
  constructor
  · intro pg ps atoms bonds adj hm hidx hfail
    rcases isOk_exists hm with ⟨mv, hmv⟩
    rcases resolveBonds_err bonds [] hidx hfail with ⟨msg, hmsg⟩
    exact ⟨msg, by simp [ffIndexedNew, afterMass, hmv, hmsg, obind]⟩
  · intro pg ps atoms bonds adj hm hidx hle hadj hfail
    rcases isOk_exists hm with ⟨mv, hmv⟩
    have hfail0 : ∃ n neigh, adj.get? n = some neigh ∧ ∃ p ∈ pairsOf neigh,
        ∃ t0 t1 t2, getAtomType atoms p.1 = .ok t0 ∧
          getAtomType atoms (0 + n) = .ok t1 ∧ getAtomType atoms p.2 = .ok t2 ∧
          (mergeParams pg ps).angle (t0, t1, t2) = none ∧
          (mergeParams pg ps).angle (t2, t1, t0) = none := by
      rcases hfail with ⟨n, neigh, hg, p, hp, t0, t1, t2, h0, h1, h2, hn1, hn2⟩
      exact ⟨n, neigh, hg, p, hp, t0, t1, t2, h0, by simpa using h1, h2, hn1, hn2⟩
    rcases resolveAngles_err adj 0 [] (by simpa using hle) hadj hfail0
      with ⟨msg, hmsg⟩
    cases hbs : resolveBonds (mergeParams pg ps) atoms bonds [] with
    | crash => exact absurd hbs (resolveBonds_not_crash bonds [] hidx)
    | err m => exact ⟨m, by simp [ffIndexedNew, afterMass, hmv, hbs, obind]⟩
    | ok bl => exact ⟨msg, by simp [ffIndexedNew, afterMass, hmv, hbs, hmsg, obind]⟩

/-- The permissive tables with every bond lookup missing. -/
def noBondParams : ForceFieldParamsKeyed :=
  { mass := fun _ => some ⟨"", 12, none⟩
    van_der_waals := fun _ => some ⟨"", 1, 1⟩
    bond := fun _ => none
    angle := fun _ => some ⟨50, 2⟩
    dihedral := fun _ _ => some ⟨4, 2⟩ }

/-- The permissive tables with every angle lookup missing. -/
def noAngleParams : ForceFieldParamsKeyed :=
  { mass := fun _ => some ⟨"", 12, none⟩
    van_der_waals := fun _ => some ⟨"", 1, 1⟩
    bond := fun _ => some ⟨100, 1⟩
    angle := fun _ => none
    dihedral := fun _ _ => some ⟨4, 2⟩ }

theorem c5_missing_bond_angle_fatal_witness :
    (∃ msg, ffIndexedNew noBondParams none chainAtoms chainBonds chainAdj =
      .err msg) ∧
    (∃ msg, ffIndexedNew noAngleParams none chainAtoms chainBonds chainAdj =
      .err msg) :=
  ⟨c5_missing_bond_angle_fatal.1 noBondParams none chainAtoms chainBonds
      chainAdj (by decide) (by decide)
      ⟨⟨0, 1⟩, by decide, "t0", "t1", by decide, by decide, rfl, rfl⟩,
    c5_missing_bond_angle_fatal.2 noAngleParams none chainAtoms chainBonds
      chainAdj (by decide) (by decide) (by decide) (by decide)
      ⟨1, [0, 2], by decide, (0, 2), by decide, "t0", "t1", "t2", by decide,
        by decide, by decide, rfl, rfl⟩⟩

/-! ### Angle-term combinatorics -/

theorem upsert_fresh {κ ν : Type} [DecidableEq κ] {m : List (κ × ν)} {key : κ}
    (v : ν) (h : key ∉ m.map Prod.fst) : upsert m key v = m ++ [(key, v)] := by
  unfold upsert
  rw [if_neg]
  intro hc
  rcases List.any_eq_true.mp hc with ⟨p, hp, hpk⟩
  exact h (List.mem_map.mpr ⟨p, hp, by simpa using hpk⟩)

theorem pairsOf_mem {α : Type} {l : List α} :
    ∀ p ∈ pairsOf l, p.1 ∈ l ∧ p.2 ∈ l := by
  induction l with
  | nil => intro p hp; simp [pairsOf] at hp
  | cons x xs ih =>
    intro p hp
    simp only [pairsOf, List.mem_append, List.mem_map] at hp
    rcases hp with ⟨y, hy, rfl⟩ | hp
    · exact ⟨List.mem_cons_self x xs, List.mem_cons_of_mem x hy⟩
    · exact ⟨List.mem_cons_of_mem x (ih p hp).1,
        List.mem_cons_of_mem x (ih p hp).2⟩

theorem pairsOf_nodup {α : Type} {l : List α} (h : l.Nodup) :
    (pairsOf l).Nodup := by
  induction l with
  | nil => simp [pairsOf]
  | cons x xs ih =>
    rcases List.nodup_cons.mp h with ⟨hx, hxs⟩
    simp only [pairsOf]
    refine List.Nodup.append ?_ (ih hxs) ?_
    · exact (List.nodup_map_iff (fun a b hab => by simpa using hab)).mpr hxs
    · intro p hp1 hp2
      rcases List.mem_map.mp hp1 with ⟨y, hy, rfl⟩
      exact hx ((pairsOf_mem _ hp2).1)

theorem pairsOf_length {α : Type} (l : List α) :
    (pairsOf l).length = l.length * (l.length - 1) / 2 := by
  have h : (pairsOf l).length = l.length.choose 2 := by
    induction l with
    | nil => simp [pairsOf]
    | cons x xs ih =>
      simp only [pairsOf, List.length_append, List.length_map, ih,
        List.length_cons]
      rw [Nat.choose_succ_succ, Nat.choose_one_right]
  rw [h, Nat.choose_two_right]

theorem filter_eq_singleton_length {b : ℕ} {xs : List ℕ} (hn : xs.Nodup)
    (hb : b ∈ xs) : (xs.filter (fun y => y = b)).length = 1 := by
  induction xs with
  | nil => simp at hb
  | cons x rest ih =>
    rcases List.nodup_cons.mp hn with ⟨hx, hrest⟩
    by_cases hxb : x = b
    · subst hxb
      have : rest.filter (fun y => y = x) = [] := by
        apply List.filter_eq_nil_iff.mpr
        intro y hy
        simp only [decide_eq_true_eq]
        intro hyx
        exact hx (hyx ▸ hy)
      simp [List.filter_cons, this]
    · have hbrest : b ∈ rest := by
        rcases List.mem_cons.mp hb with rfl | hm
        · exact absurd rfl hxb
        · exact hm
      simp [List.filter_cons, hxb, ih hrest hbrest]

theorem length_filter_or_count {α : Type} [DecidableEq α] (u v : α)
    (huv : u ≠ v) (l : List α) :
    (l.filter (fun p => p = u ∨ p = v)).length = l.count u + l.count v := by
  induction l with
  | nil => simp
  | cons c rest ih =>
    rw [List.filter_cons, List.count_cons, List.count_cons]
    by_cases hcu : c = u
    · rw [if_pos (by simp [hcu]), List.length_cons, ih,
        if_pos (beq_iff_eq.mpr hcu),
        if_neg (by
          simp only [beq_iff_eq]
          intro h
          exact huv (hcu.symm.trans h))]
      omega
    · by_cases hcv : c = v
      · rw [if_pos (by simp [hcv]), List.length_cons, ih,
          if_neg (by simp only [beq_iff_eq]; exact hcu),
          if_pos (beq_iff_eq.mpr hcv)]
        omega
      · rw [if_neg (by simp [hcu, hcv]), ih,
          if_neg (by simp only [beq_iff_eq]; exact hcu),
          if_neg (by simp only [beq_iff_eq]; exact hcv)]
        omega

theorem count_not_mem_zero {α : Type} [DecidableEq α] {a : α} {l : List α}
    (h : a ∉ l) : l.count a = 0 := by
  induction l with
  | nil => simp
  | cons c rest ih =>
    rw [List.count_cons, ih (fun hm => h (List.mem_cons_of_mem c hm)),
      if_neg (by
        simp only [beq_iff_eq]
        intro hc
        exact h (hc ▸ List.mem_cons_self c rest))]

theorem pairsOf_xor {l : List ℕ} (hn : l.Nodup) {a b : ℕ} (ha : a ∈ l)
    (hb : b ∈ l) (hab : a ≠ b) :
    ((a, b) ∈ pairsOf l ∧ (b, a) ∉ pairsOf l) ∨
      ((b, a) ∈ pairsOf l ∧ (a, b) ∉ pairsOf l) := by
  induction l with
  | nil => simp at ha
  | cons x xs ih =>
    rcases List.nodup_cons.mp hn with ⟨hx, hxs⟩
    by_cases hxa : x = a
    · subst hxa
      have hbxs : b ∈ xs := by
        rcases List.mem_cons.mp hb with rfl | hm
        · exact absurd rfl hab.symm
        · exact hm
      left
      constructor
      · exact List.mem_append_left _ (List.mem_map.mpr ⟨b, hbxs, rfl⟩)
      · intro hmem
        rcases List.mem_append.mp hmem with hm | hm
        · rcases List.mem_map.mp hm with ⟨y, hy, heq⟩
          exact hab.symm (congrArg Prod.fst heq).symm
        · exact hx ((pairsOf_mem _ hm).2)
    · by_cases hxb : x = b
      · subst hxb
        have haxs : a ∈ xs := by
          rcases List.mem_cons.mp ha with rfl | hm
          · exact absurd rfl hxa
          · exact hm
        right
        constructor
        · exact List.mem_append_left _ (List.mem_map.mpr ⟨a, haxs, rfl⟩)
        · intro hmem
          rcases List.mem_append.mp hmem with hm | hm
          · rcases List.mem_map.mp hm with ⟨y, hy, heq⟩
            exact hxa (congrArg Prod.fst heq)
          · exact hx ((pairsOf_mem _ hm).2)
      · have haxs : a ∈ xs := by
          rcases List.mem_cons.mp ha with rfl | hm
          · exact absurd rfl hxa
          · exact hm
        have hbxs : b ∈ xs := by
          rcases List.mem_cons.mp hb with rfl | hm
          · exact absurd rfl hxb
          · exact hm
        have hhead : ∀ q : ℕ × ℕ, q ∈ xs.map (fun y => (x, y)) →
            q ≠ (a, b) ∧ q ≠ (b, a) := by
          intro q hq
          rcases List.mem_map.mp hq with ⟨y, hy, rfl⟩
          constructor
          · intro heq
            exact hxa (congrArg Prod.fst heq)
          · intro heq
            exact hxb (congrArg Prod.fst heq)
        rcases ih hxs haxs hbxs with ⟨h1, h2⟩ | ⟨h1, h2⟩
        · left
          refine ⟨List.mem_append_right _ h1, ?_⟩
          intro hmem
          rcases List.mem_append.mp hmem with hm | hm
          · exact (hhead _ hm).2 rfl
          · exact h2 hm
        · right
          refine ⟨List.mem_append_right _ h1, ?_⟩
          intro hmem
          rcases List.mem_append.mp hmem with hm | hm
          · exact (hhead _ hm).1 rfl
          · exact h2 hm

theorem pairsOf_once {l : List ℕ} (hn : l.Nodup) {a b : ℕ} (ha : a ∈ l)
    (hb : b ∈ l) (hab : a ≠ b) :
    ((pairsOf l).filter
      (fun p => (p.1 = a ∧ p.2 = b) ∨ (p.1 = b ∧ p.2 = a))).length = 1 := by
  have hcong : (pairsOf l).filter
      (fun p => (p.1 = a ∧ p.2 = b) ∨ (p.1 = b ∧ p.2 = a)) =
      (pairsOf l).filter (fun p => p = (a, b) ∨ p = (b, a)) := by
    apply List.filter_congr
    intro p hp
    simp [Prod.ext_iff]
  rw [hcong]
  rw [length_filter_or_count (a, b) (b, a) (by simp [Prod.ext_iff]; intro h; exact absurd h hab) (pairsOf l)]
  have hnd := pairsOf_nodup hn
  rcases pairsOf_xor hn ha hb hab with ⟨h1, h2⟩ | ⟨h1, h2⟩
  · rw [List.count_eq_one_of_mem hnd h1, count_not_mem_zero h2]
  · rw [List.count_eq_one_of_mem hnd h1, count_not_mem_zero h2]

theorem anglesForCenter_keys {params : ForceFieldParamsKeyed}
    {atoms : List Atom} {center : ℕ} :
    ∀ (ps : List (ℕ × ℕ)) (acc acc' : List ((ℕ × ℕ × ℕ) × AngleParams)),
      anglesForCenter params atoms center ps acc = .ok acc' →
      (∀ p ∈ ps, (p.1, center, p.2) ∉ acc.map Prod.fst) →
      (ps.map (fun p => (p.1, center, p.2))).Nodup →
      acc'.map Prod.fst =
        acc.map Prod.fst ++ ps.map (fun p => (p.1, center, p.2)) := by
  intro ps
  induction ps with
  | nil =>
    intro acc acc' h _ _
    simp only [anglesForCenter] at h
    cases h
    simp
  | cons p rest ih =>
    intro acc acc' h hfresh hnd
    obtain ⟨i, k⟩ := p
    simp only [anglesForCenter] at h
    rcases obind_ok h with ⟨t0, h0, h⟩
    rcases obind_ok h with ⟨t1, h1, h⟩
    rcases obind_ok h with ⟨t2, h2, h⟩
    split at h
    · exact Outcome.noConfusion h
    next d hd =>
      have hf0 : (i, center, k) ∉ acc.map Prod.fst :=
        hfresh (i, k) (List.mem_cons_self _ rest)
      rw [upsert_fresh d hf0] at h
      rcases List.nodup_cons.mp hnd with ⟨hhd, htl⟩
      have hih := ih (acc ++ [((i, center, k), d)]) acc' h ?_ htl
      · rw [hih]
        simp
      · intro p hp
        rw [List.map_append]
        intro hmem
        rcases List.mem_append.mp hmem with hm | hm
        · exact hfresh p (List.mem_cons_of_mem _ hp) hm
        · have heq : (p.1, center, p.2) = (i, center, k) := by simpa using hm
          apply hhd
          show (i, center, k) ∈ List.map (fun p => (p.1, center, p.2)) rest
          rw [← heq]
          exact List.mem_map_of_mem (fun p => (p.1, center, p.2)) hp

/-- The angle keys generated by the angle loop, center by center. -/
def angleKeys : List (List ℕ) → ℕ → List (ℕ × ℕ × ℕ)
  | [], _ => []
  | neigh :: rest, c0 =>
    (if neigh.length < 2 then []
      else (pairsOf neigh).map (fun p => (p.1, c0, p.2))) ++ angleKeys rest (c0 + 1)

theorem angleKeys_mid_ge :
    ∀ (ls : List (List ℕ)) (c0 : ℕ) (q : ℕ × ℕ × ℕ), q ∈ angleKeys ls c0 →
      c0 ≤ q.2.1 := by
  intro ls
  induction ls with
  | nil => intro c0 q hq; simp [angleKeys] at hq
  | cons nb rest ih =>
    intro c0 q hq
    simp only [angleKeys, List.mem_append] at hq
    rcases hq with hq | hq
    · split at hq
      · simp at hq
      · rcases List.mem_map.mp hq with ⟨p, hp, rfl⟩
        simp
    · exact Nat.le_of_succ_le (ih (c0 + 1) q hq)

theorem resolveAngles_keys {params : ForceFieldParamsKeyed}
    {atoms : List Atom} :
    ∀ (ls : List (List ℕ)) (c0 : ℕ)
      (acc acc' : List ((ℕ × ℕ × ℕ) × AngleParams)),
      resolveAngles params atoms ls c0 acc = .ok acc' →
      (∀ q ∈ acc.map Prod.fst, q.2.1 < c0) →
      (∀ neigh ∈ ls, neigh.Nodup) →
      acc'.map Prod.fst = acc.map Prod.fst ++ angleKeys ls c0 := by
  intro ls
  induction ls with
  | nil =>
    intro c0 acc acc' h _ _
    simp only [resolveAngles] at h
    cases h
    simp [angleKeys]
  | cons nb rest ih =>
    intro c0 acc acc' h hmid hnd
    have hnb := hnd nb (List.mem_cons_self nb rest)
    have hnd' := fun n hn => hnd n (List.mem_cons_of_mem nb hn)
    simp only [resolveAngles] at h
    split at h
    next hshort =>
      have hih := ih (c0 + 1) acc acc' h
        (fun q hq => Nat.lt_succ_of_lt (hmid q hq)) hnd'
      rw [hih]
      simp [angleKeys, hshort]
    next hshort =>
      rcases obind_ok h with ⟨acc2, hac, h⟩
      have hkeys := anglesForCenter_keys (pairsOf nb) acc acc2 hac
        (fun p _ hmem => Nat.lt_irrefl c0 (hmid _ hmem))
        ((pairsOf_nodup hnb).map
          (fun p q hpq => by
            simpa [Prod.ext_iff] using hpq))
      have hmid2 : ∀ q ∈ acc2.map Prod.fst, q.2.1 < c0 + 1 := by
        intro q hq
        rw [hkeys] at hq
        rcases List.mem_append.mp hq with hm | hm
        · exact Nat.lt_succ_of_lt (hmid q hm)
        · rcases List.mem_map.mp hm with ⟨p, hp, rfl⟩
          simp
      have hih := ih (c0 + 1) acc2 acc' h hmid2 hnd'
      rw [hih, hkeys]
      simp [angleKeys, hshort]

theorem angleKeys_filter_mid :
    ∀ (ls : List (List ℕ)) (c0 n : ℕ) (neigh : List ℕ),
      ls.get? n = some neigh →
      (angleKeys ls c0).filter (fun q => q.2.1 = c0 + n) =
        (if neigh.length < 2 then []
          else (pairsOf neigh).map (fun p => (p.1, c0 + n, p.2))) := by
  intro ls
  induction ls with
  | nil => intro c0 n neigh hg; simp at hg
  | cons nb rest ih =>
    intro c0 n neigh hg
    simp only [angleKeys, List.filter_append]
    cases n with
    | zero =>
      have hnb : nb = neigh := by simpa using hg
      subst hnb
      have h1 : (angleKeys rest (c0 + 1)).filter
          (fun q => q.2.1 = c0 + 0) = [] := by
        apply List.filter_eq_nil_iff.mpr
        intro q hq
        have := angleKeys_mid_ge rest (c0 + 1) q hq
        simp only [decide_eq_true_eq]
        omega
      rw [h1]
      split
      · simp
      · rw [List.append_nil]
        have : ∀ q ∈ (pairsOf nb).map (fun p => (p.1, c0, p.2)),
            decide (q.2.1 = c0 + 0) = true := by
          intro q hq
          rcases List.mem_map.mp hq with ⟨p, hp, rfl⟩
          simp
        rw [List.filter_eq_self.mpr this]
        simp
    | succ n2 =>
      have hg2 : rest.get? n2 = some neigh := by simpa using hg
      have h1 : (if nb.length < 2 then []
          else (pairsOf nb).map (fun p => (p.1, c0, p.2))).filter
          (fun q => q.2.1 = c0 + (n2 + 1)) = [] := by
        apply List.filter_eq_nil_iff.mpr
        intro q hq
        split at hq
        · simp at hq
        · rcases List.mem_map.mp hq with ⟨p, hp, rfl⟩
          simp only [decide_eq_true_eq]
          omega
      rw [h1]
      have harith : c0 + (n2 + 1) = (c0 + 1) + n2 := by omega
      rw [List.nil_append, harith]
      exact ih (c0 + 1) n2 neigh hg2

/-- Phase decomposition of a successful `ForceFieldParamsIndexed::new`. -/
theorem ffIndexedNew_ok_parts {pg : ForceFieldParamsKeyed}
    {ps : Option ForceFieldParamsKeyed} {atoms : List Atom} {bonds : List Bond}
    {adj : List (List ℕ)} {r : ForceFieldParamsIndexed}
    (h : ffIndexedNew pg ps atoms bonds adj = .ok r) :
    ∃ mv bs angs st1 st2,
      resolveMassVdw (mergeParams pg ps) atoms 0 = .ok mv ∧
      resolveBonds (mergeParams pg ps) atoms bonds [] = .ok bs ∧
      resolveAngles (mergeParams pg ps) atoms adj 0 [] = .ok angs ∧
      resolvePropers (mergeParams pg ps) atoms adj adj 0 ([], []) = .ok st1 ∧
      resolveImpropers (mergeParams pg ps) atoms adj 0 st1 = .ok st2 ∧
      r = ⟨mv.1, mv.2, bs, angs, st2.2⟩ := by
  unfold ffIndexedNew at h
  rcases obind_ok h with ⟨mv, hmv, h⟩
  unfold afterMass at h
  rcases obind_ok h with ⟨bs, hbs, h⟩
  rcases obind_ok h with ⟨angs, hangs, h⟩
  rcases obind_ok h with ⟨st1, hst1, h⟩
  rcases obind_ok h with ⟨st2, hst2, h⟩
  cases h
  exact ⟨mv, bs, angs, st1, st2, hmv, hbs, hangs, hst1, hst2, rfl⟩

/-- C6.  For every adjacency list with duplicate-free neighbour sets, a
successful `ForceFieldParamsIndexed::new` generates, for each center atom
with exactly k neighbours, exactly k·(k-1)/2 angle terms centered there,
and each unordered pair of that center's neighbours appears in exactly one
such term. -/
theorem c6_angle_term_count (pg : ForceFieldParamsKeyed)
    (ps : Option ForceFieldParamsKeyed) (atoms : List Atom)
    (bonds : List Bond) (adj : List (List ℕ)) (r : ForceFieldParamsIndexed)
    (h : ffIndexedNew pg ps atoms bonds adj = .ok r)
    (hnodup : ∀ neigh ∈ adj, neigh.Nodup)
    (c : ℕ) (neigh : List ℕ) (hc : adj.get? c = some neigh) :
    ((r.angle.map Prod.fst).filter (fun q => q.2.1 = c)).length =
      neigh.length * (neigh.length - 1) / 2 ∧
    (∀ a b, a ∈ neigh → b ∈ neigh → a ≠ b →
      ((r.angle.map Prod.fst).filter (fun q => q.2.1 = c ∧
        ((q.1 = a ∧ q.2.2 = b) ∨ (q.1 = b ∧ q.2.2 = a)))).length = 1) := by
  rcases ffIndexedNew_ok_parts h with ⟨mv, bs, angs, st1, st2, -, -, hangs, -, -, rfl⟩
  have hkeys : angs.map Prod.fst = angleKeys adj 0 := by
    have := resolveAngles_keys adj 0 [] angs hangs (by simp) hnodup
    simpa using this
  have hseg : (angleKeys adj 0).filter (fun q => q.2.1 = c) =
      (if neigh.length < 2 then []
        else (pairsOf neigh).map (fun p => (p.1, c, p.2))) := by
    have := angleKeys_filter_mid adj 0 c neigh hc
    simpa using this
  constructor
  · show ((angs.map Prod.fst).filter (fun q => q.2.1 = c)).length = _
    rw [hkeys, hseg]
    split
    next hshort =>
      have : neigh.length * (neigh.length - 1) / 2 = 0 := by
        interval_cases h2 : neigh.length
        · rfl
        · rfl
      rw [this]
      rfl
    next hshort =>
      rw [List.length_map, pairsOf_length]
  · intro a b ha hb hab
    have h2le : 2 ≤ neigh.length := by
      cases neigh with
      | nil => simp at ha
      | cons x t =>
        cases t with
        | nil =>
          have hax : a = x := by simpa using ha
          have hbx : b = x := by simpa using hb
          exact absurd (hax.trans hbx.symm) hab
        | cons y t2 => simp [List.length_cons]
    show ((angs.map Prod.fst).filter _).length = 1
    rw [hkeys]
    have hconj : (angleKeys adj 0).filter (fun q => q.2.1 = c ∧
        ((q.1 = a ∧ q.2.2 = b) ∨ (q.1 = b ∧ q.2.2 = a))) =
        ((angleKeys adj 0).filter (fun q => q.2.1 = c)).filter
          (fun q => (q.1 = a ∧ q.2.2 = b) ∨ (q.1 = b ∧ q.2.2 = a)) := by
      rw [List.filter_filter]
      apply List.filter_congr
      intro q hq
      by_cases h1 : q.2.1 = c <;>
        by_cases h2 : (q.1 = a ∧ q.2.2 = b) ∨ (q.1 = b ∧ q.2.2 = a) <;>
        simp [h1, h2]
    rw [hconj, hseg, if_neg (by omega)]
    rw [List.filter_map, List.length_map]
    have hcong2 : (pairsOf neigh).filter
        ((fun q : ℕ × ℕ × ℕ =>
          decide ((q.1 = a ∧ q.2.2 = b) ∨ (q.1 = b ∧ q.2.2 = a))) ∘
          (fun p => (p.1, c, p.2))) =
        (pairsOf neigh).filter
          (fun p => (p.1 = a ∧ p.2 = b) ∨ (p.1 = b ∧ p.2 = a)) := by
      apply List.filter_congr
      intro p hp
      simp [Function.comp]
    rw [hcong2]
    exact pairsOf_once (hnodup neigh (by
      rcases List.get?_eq_some.mp hc with ⟨hlt, hget⟩
      rw [← hget]
      exact List.get_mem adj c hlt)) ha hb hab

theorem c6_angle_term_count_witness :
    ((starIndexed.angle.map Prod.fst).filter (fun q => q.2.1 = 0)).length =
      [1, 2, 3].length * ([1, 2, 3].length - 1) / 2 ∧
    (∀ a b, a ∈ [1, 2, 3] → b ∈ [1, 2, 3] → a ≠ b →
      ((starIndexed.angle.map Prod.fst).filter (fun q => q.2.1 = 0 ∧
        ((q.1 = a ∧ q.2.2 = b) ∨ (q.1 = b ∧ q.2.2 = a)))).length = 1) :=
  c6_angle_term_count permissiveParams none starAtoms starBonds starAdj
    starIndexed (by decide) (by decide) 0 [1, 2, 3] (by decide)

/-! ### Proper-dihedral canonicalisation and deduplication -/

/-- Invariant of the proper-dihedral phase: the stored keys are
duplicate-free, recorded in the seen-set, and canonical (outer endpoints
ordered `(min, max)`). -/
def ProperInv (st : DiheState) : Prop :=
  (st.2.map Prod.fst).Nodup ∧ (∀ q ∈ st.2.map Prod.fst, q ∈ st.1) ∧
    ∀ q ∈ st.2.map Prod.fst, q.1 < q.2.2.2

theorem properKey_canon {i j k l : ℕ} (hne : i ≠ l) :
    (properKey i j k l).1 < (properKey i j k l).2.2.2 := by
  unfold properKey
  split
  next h => simpa using h
  next h => simp only []; omega

theorem properInv_insert {st : DiheState} {key : Quad} {v : DihedralParams}
    (hinv : ProperInv st) (hseen : key ∉ st.1) (hcanon : key.1 < key.2.2.2) :
    ProperInv (key :: st.1, upsert st.2 key v) := by
  have hfresh : key ∉ st.2.map Prod.fst := fun hm => hseen (hinv.2.1 key hm)
  rw [upsert_fresh v hfresh]
  refine ⟨?_, ?_, ?_⟩
  · rw [List.map_append]
    simp only [List.map_cons, List.map_nil]
    exact List.Nodup.append hinv.1 (List.nodup_singleton key)
      (by
        intro q hq hq2
        have : q = key := by simpa using hq2
        exact hfresh (this ▸ hq))
  · intro q hq
    rw [List.map_append] at hq
    rcases List.mem_append.mp hq with hm | hm
    · exact List.mem_cons_of_mem key (hinv.2.1 q hm)
    · have : q = key := by simpa using hm
      exact this ▸ List.mem_cons_self key st.1
  · intro q hq
    rw [List.map_append] at hq
    rcases List.mem_append.mp hq with hm | hm
    · exact hinv.2.2 q hm
    · have : q = key := by simpa using hm
      exact this ▸ hcanon

theorem properInv_skip {st : DiheState} {key : Quad} (hinv : ProperInv st) :
    ProperInv (key :: st.1, st.2) :=
  ⟨hinv.1, fun q hq => List.mem_cons_of_mem key (hinv.2.1 q hq), hinv.2.2⟩

theorem properInner_inv {params : ForceFieldParamsKeyed} {atoms : List Atom}
    {j k i : ℕ} (l : List ℕ) (st st' : DiheState)
    (h : properInner params atoms j k i l st = .ok st')
    (hinv : ProperInv st) : ProperInv st' := by
  induction l generalizing st with
  | nil =>
    simp only [properInner] at h
    cases h
    exact hinv
  | cons a rest ih =>
    simp only [properInner] at h
    split at h
    · exact ih st h hinv
    · split at h
      next hil => exact ih st h hinv
      next hil =>
        split at h
        next hseen => exact ih st h hinv
        next hseen =>
          rcases obind_ok h with ⟨ti, _, h⟩
          rcases obind_ok h with ⟨tj, _, h⟩
          rcases obind_ok h with ⟨tk, _, h⟩
          rcases obind_ok h with ⟨tl, _, h⟩
          split at h
          next d hd =>
            exact ih _ h (properInv_insert hinv hseen (properKey_canon hil))
          next => exact ih _ h (properInv_skip hinv)

theorem properMid_inv {params : ForceFieldParamsKeyed} {atoms : List Atom}
    {adj : List (List ℕ)} {j k : ℕ} (l : List ℕ) (st st' : DiheState)
    (h : properMid params atoms adj j k l st = .ok st')
    (hinv : ProperInv st) : ProperInv st' := by
  induction l generalizing st with
  | nil =>
    simp only [properMid] at h
    cases h
    exact hinv
  | cons a rest ih =>
    simp only [properMid] at h
    split at h
    · exact ih st h hinv
    · split at h
      · exact absurd h (by simp)
      · rcases obind_ok h with ⟨st1, h1, h⟩
        exact ih st1 h (properInner_inv _ st st1 h1 hinv)

theorem properBonds_inv {params : ForceFieldParamsKeyed} {atoms : List Atom}
    {adj : List (List ℕ)} {j : ℕ} {nbrJ : List ℕ} (l : List ℕ)
    (st st' : DiheState)
    (h : properBonds params atoms adj j nbrJ l st = .ok st')
    (hinv : ProperInv st) : ProperInv st' := by
  induction l generalizing st with
  | nil =>
    simp only [properBonds] at h
    cases h
    exact hinv
  | cons a rest ih =>
    simp only [properBonds] at h
    split at h
    · exact ih st h hinv
    · rcases obind_ok h with ⟨st1, h1, h⟩
      exact ih st1 h (properMid_inv _ st st1 h1 hinv)

theorem resolvePropers_inv {params : ForceFieldParamsKeyed}
    {atoms : List Atom} {adj : List (List ℕ)} (ls : List (List ℕ)) (j0 : ℕ)
    (st st' : DiheState)
    (h : resolvePropers params atoms adj ls j0 st = .ok st')
    (hinv : ProperInv st) : ProperInv st' := by
  induction ls generalizing j0 st with
  | nil =>
    simp only [resolvePropers] at h
    cases h
    exact hinv
  | cons a rest ih =>
    simp only [resolvePropers] at h
    rcases obind_ok h with ⟨st1, h1, h⟩
    exact ih _ st1 h (properBonds_inv _ st st1 h1 hinv)

/-- The chain's proper-dihedral phase output state. -/
def chainPropersState : DiheState :=
  match resolvePropers (mergeParams permissiveParams none) chainAtoms chainAdj
      chainAdj 0 ([], []) with
  | .ok st => st
  | _ => ([], [])

/-- C2.  The proper-dihedral loop registers each physical torsion exactly
once: the stored keys of the proper phase are duplicate-free and
canonical (the 4-tuple is `(i,j,k,l)` with `i < l`, taking `(l,k,j,i)`
when `l < i`), because each central bond is processed once (`j < k`) and
the seen-set rejects duplicates; concretely, on the chain 0-1-2-3 (whose
adjacency encodes both traversal directions i-j-k-l and l-k-j-i) the
resolved table holds exactly one dihedral entry, keyed `(0, 1, 2, 3)`. -/
theorem c2_proper_dihedral_dedup :
    (∀ (params : ForceFieldParamsKeyed) (atoms : List Atom)
      (adj : List (List ℕ)) (st' : DiheState),
      resolvePropers params atoms adj adj 0 ([], []) = .ok st' →
      (st'.2.map Prod.fst).Nodup ∧ ∀ q ∈ st'.2.map Prod.fst, q.1 < q.2.2.2) ∧
    (∃ r, ffIndexedNew permissiveParams none chainAtoms chainBonds chainAdj =
      .ok r ∧ r.dihedral.map Prod.fst = [(0, 1, 2, 3)]) := by
  constructor
  · intro params atoms adj st' h
    have hinv := resolvePropers_inv adj 0 ([], []) st' h
      ⟨by simp, by simp, by simp⟩
    exact ⟨hinv.1, hinv.2.2⟩
  · exact ⟨chainIndexed, by decide, by decide⟩

theorem c2_proper_dihedral_dedup_witness :
    (chainPropersState.2.map Prod.fst).Nodup ∧
      ∀ q ∈ chainPropersState.2.map Prod.fst, q.1 < q.2.2.2 :=
  c2_proper_dihedral_dedup.1 (mergeParams permissiveParams none) chainAtoms
    chainAdj chainPropersState rfl

/-! ### Neighbour-list membership -/

theorem mem_drop_range {n m j : ℕ} : j ∈ (List.range n).drop m ↔ m ≤ j ∧ j < n := by
  constructor
  · intro h
    rcases List.getElem_of_mem h with ⟨idx, hidx, hget⟩
    rw [List.getElem_drop] at hget
    rw [List.length_drop, List.length_range] at hidx
    rw [List.getElem_range] at hget
    omega
  · rintro ⟨h1, h2⟩
    have hlt : j - m < ((List.range n).drop m).length := by
      rw [List.length_drop, List.length_range]
      omega
    have hg : ((List.range n).drop m)[j - m] = j := by
      rw [List.getElem_drop, List.getElem_range]
      omega
    rw [← hg]
    exact List.getElem_mem hlt

theorem appendAt_length : ∀ (l : List (List ℕ)) (i v : ℕ),
    (appendAt l i v).length = l.length := by
  intro l
  induction l with
  | nil => intro i v; rfl
  | cons xs rest ih =>
    intro i v
    cases i with
    | zero => rfl
    | succ i2 => simp [appendAt, ih]

theorem appendAt_getD_ne : ∀ (l : List (List ℕ)) (i v r : ℕ), r ≠ i →
    (appendAt l i v).getD r [] = l.getD r [] := by
  intro l
  induction l with
  | nil => intro i v r _; rfl
  | cons xs rest ih =>
    intro i v r hr
    cases i with
    | zero =>
      cases r with
      | zero => exact absurd rfl hr
      | succ r2 => simp [appendAt]
    | succ i2 =>
      cases r with
      | zero => simp [appendAt]
      | succ r2 =>
        simp only [appendAt, List.getD_cons_succ]
        exact ih i2 v r2 (fun h => hr (by omega))

theorem appendAt_getD_self : ∀ (l : List (List ℕ)) (i v : ℕ), i < l.length →
    (appendAt l i v).getD i [] = l.getD i [] ++ [v] := by
  intro l
  induction l with
  | nil => intro i v h; simp at h
  | cons xs rest ih =>
    intro i v h
    cases i with
    | zero => simp [appendAt]
    | succ i2 =>
      simp only [appendAt, List.getD_cons_succ]
      exact ih i2 v (by simpa using h)

theorem neighLoopJ_length {posits : List Vec3Q} {cell : SimBox} {c2 : ℚ}
    {i : ℕ} : ∀ (js : List ℕ) (nbr : List (List ℕ)),
    (neighLoopJ posits cell c2 i js nbr).length = nbr.length := by
  intro js
  induction js with
  | nil => intro nbr; rfl
  | cons j rest ih =>
    intro nbr
    simp only [neighLoopJ]
    split
    · rw [ih, appendAt_length, appendAt_length]
    · exact ih nbr

theorem neighLoopJ_mem {posits : List Vec3Q} {cell : SimBox} {c2 : ℚ} {i : ℕ} :
    ∀ (js : List ℕ) (nbr : List (List ℕ)) (x r : ℕ),
      i < nbr.length → (∀ j ∈ js, j < nbr.length) → i ∉ js →
      (x ∈ (neighLoopJ posits cell c2 i js nbr).getD r [] ↔
        x ∈ nbr.getD r [] ∨
        (r = i ∧ x ∈ js ∧ pairDist2 posits cell i x < c2) ∨
        (x = i ∧ r ∈ js ∧ pairDist2 posits cell i r < c2)) := by
  intro js
  induction js with
  | nil =>
    intro nbr x r _ _ _
    simp [neighLoopJ]
  | cons j rest ih =>
    intro nbr x r hi hjs hnotin
    have hj : j < nbr.length := hjs j (List.mem_cons_self j rest)
    have hij : j ≠ i := fun h => hnotin (h ▸ List.mem_cons_self j rest)
    have hrest : ∀ j' ∈ rest, j' < nbr.length :=
      fun j' hj' => hjs j' (List.mem_cons_of_mem j hj')
    have hni : i ∉ rest := fun h => hnotin (List.mem_cons_of_mem j h)
    simp only [neighLoopJ]
    split
    next hd =>
      have hlen2 : (appendAt (appendAt nbr i j) j i).length = nbr.length := by
        rw [appendAt_length, appendAt_length]
      rw [ih (appendAt (appendAt nbr i j) j i) x r (by omega)
        (fun j' hj' => by rw [hlen2]; exact hrest j' hj') hni]
      have hrow : (appendAt (appendAt nbr i j) j i).getD r [] =
          if r = i then nbr.getD i [] ++ [j]
          else if r = j then nbr.getD j [] ++ [i]
          else nbr.getD r [] := by
        by_cases hr1 : r = i
        · subst hr1
          rw [if_pos rfl, appendAt_getD_ne _ _ _ _ (fun h => hij h.symm),
            appendAt_getD_self _ _ _ hi]
        · rw [if_neg hr1]
          by_cases hr2 : r = j
          · subst hr2
            rw [if_pos rfl, appendAt_getD_self _ _ _ (by rwa [appendAt_length]),
              appendAt_getD_ne _ _ _ _ hr1]
          · rw [if_neg hr2, appendAt_getD_ne _ _ _ _ hr2,
              appendAt_getD_ne _ _ _ _ hr1]
      rw [hrow]
      by_cases hr1 : r = i
      · rw [hr1, if_pos rfl]
        simp only [List.mem_append, List.mem_cons, List.not_mem_nil, or_false,
          eq_self_iff_true, true_and]
        constructor
        · rintro ((hx | rfl) | ⟨hxr, hp⟩ | ⟨rfl, hri, hp⟩)
          · exact Or.inl hx
          · exact Or.inr (Or.inl ⟨Or.inl rfl, hd⟩)
          · exact Or.inr (Or.inl ⟨Or.inr hxr, hp⟩)
          · exact absurd hri hni
        · rintro (hx | ⟨(rfl | hxr), hp⟩ | ⟨rfl, (hij2 | hri), hp⟩)
          · exact Or.inl (Or.inl hx)
          · exact Or.inl (Or.inr rfl)
          · exact Or.inr (Or.inl ⟨hxr, hp⟩)
          · exact absurd hij2.symm hij
          · exact absurd hri hni
      · by_cases hr2 : r = j
        · rw [hr2, if_neg hij, if_pos rfl]
          simp only [List.mem_append, List.mem_cons, List.not_mem_nil, or_false,
            eq_self_iff_true, true_and, true_or]
          constructor
          · rintro ((hx | rfl) | ⟨hji, -⟩ | ⟨rfl, hjr, hp⟩)
            · exact Or.inl hx
            · exact Or.inr (Or.inr ⟨rfl, hd⟩)
            · exact absurd hji hij
            · exact Or.inr (Or.inr ⟨rfl, hp⟩)
          · rintro (hx | ⟨hji, -⟩ | ⟨rfl, hp⟩)
            · exact Or.inl (Or.inl hx)
            · exact absurd hji hij
            · exact Or.inl (Or.inr rfl)
        · rw [if_neg hr1, if_neg hr2]
          simp only [List.mem_cons]
          constructor
          · rintro (hx | ⟨hri, hxr, hp⟩ | ⟨rfl, hri, hp⟩)
            · exact Or.inl hx
            · exact absurd hri hr1
            · exact Or.inr (Or.inr ⟨rfl, Or.inr hri, hp⟩)
          · rintro (hx | ⟨hri, -, -⟩ | ⟨rfl, (hrj | hri), hp⟩)
            · exact Or.inl hx
            · exact absurd hri hr1
            · exact absurd hrj hr2
            · exact Or.inr (Or.inr ⟨rfl, hri, hp⟩)
    next hd =>
      rw [ih nbr x r hi hrest hni]
      simp only [List.mem_cons]
      constructor
      · rintro (hx | ⟨hri, hxr, hp⟩ | ⟨rfl, hri, hp⟩)
        · exact Or.inl hx
        · exact Or.inr (Or.inl ⟨hri, Or.inr hxr, hp⟩)
        · exact Or.inr (Or.inr ⟨rfl, Or.inr hri, hp⟩)
      · rintro (hx | ⟨hri, (rfl | hxr), hp⟩ | ⟨rfl, (hrj | hri), hp⟩)
        · exact Or.inl hx
        · exact absurd hp hd
        · exact Or.inr (Or.inl ⟨hri, hxr, hp⟩)
        · rw [hrj] at hp
          exact absurd hp hd
        · exact Or.inr (Or.inr ⟨rfl, hri, hp⟩)

theorem neighLoopI_mem {posits : List Vec3Q} {cell : SimBox} {c2 : ℚ} {n : ℕ} :
    ∀ (is' : List ℕ) (nbr : List (List ℕ)) (x r : ℕ),
      nbr.length = n → (∀ i ∈ is', i < n) →
      (x ∈ (neighLoopI posits cell c2 n is' nbr).getD r [] ↔
        x ∈ nbr.getD r [] ∨ ∃ i ∈ is',
          ((r = i ∧ x ∈ (List.range n).drop (i + 1) ∧
              pairDist2 posits cell i x < c2) ∨
            (x = i ∧ r ∈ (List.range n).drop (i + 1) ∧
              pairDist2 posits cell i r < c2))) := by
  intro is'
  induction is' with
  | nil =>
    intro nbr x r _ _
    simp [neighLoopI]
  | cons i rest ih =>
    intro nbr x r hn his
    have hi : i < n := his i (List.mem_cons_self i rest)
    have hrest : ∀ i' ∈ rest, i' < n :=
      fun i' hi' => his i' (List.mem_cons_of_mem i hi')
    simp only [neighLoopI]
    rw [ih (neighLoopJ posits cell c2 i ((List.range n).drop (i + 1)) nbr) x r
      (by rw [neighLoopJ_length, hn]) hrest]
    rw [neighLoopJ_mem ((List.range n).drop (i + 1)) nbr x r (by omega)
      (fun j hj => by rw [hn]; exact (mem_drop_range.mp hj).2)
      (fun hmem => by have := mem_drop_range.mp hmem; omega)]
    constructor
    · rintro ((hx | hcase) | ⟨i', hi', hcase⟩)
      · exact Or.inl hx
      · exact Or.inr ⟨i, List.mem_cons_self i rest, hcase⟩
      · exact Or.inr ⟨i', List.mem_cons_of_mem i hi', hcase⟩
    · rintro (hx | ⟨i', hi', hcase⟩)
      · exact Or.inl (Or.inl hx)
      · rcases List.mem_cons.mp hi' with rfl | hmem
        · exact Or.inl (Or.inr hcase)
        · exact Or.inr ⟨i', hmem, hcase⟩

theorem buildNeighbours_mem (posits : List Vec3Q) (cell : SimBox)
    (cutoff skin : ℚ) (x r : ℕ) :
    x ∈ (buildNeighbours posits cell cutoff skin).getD r [] ↔
      (r < x ∧ x < posits.length ∧
        pairDist2 posits cell r x < (cutoff + skin) ^ 2) ∨
      (x < r ∧ r < posits.length ∧
        pairDist2 posits cell x r < (cutoff + skin) ^ 2) := by
  unfold buildNeighbours
  rw [neighLoopI_mem (List.range (posits.length - 1))
    (List.replicate posits.length []) x r (List.length_replicate _ _)
    (fun i hi => by have := List.mem_range.mp hi; omega)]
  have hrep : (List.replicate posits.length ([] : List ℕ)).getD r [] = [] := by
    rcases Nat.lt_or_ge r posits.length with h | h
    · rw [List.getD_eq_getElem _ _ (by simpa using h)]
      exact List.getElem_replicate _ _
    · rw [List.getD_eq_default]
      simpa using h
  rw [hrep]
  simp only [List.not_mem_nil, false_or, List.mem_range, mem_drop_range]
  constructor
  · rintro ⟨i, hi, ⟨rfl, ⟨hlo, hhi⟩, hp⟩ | ⟨rfl, ⟨hlo, hhi⟩, hp⟩⟩
    · exact Or.inl ⟨by omega, hhi, hp⟩
    · exact Or.inr ⟨by omega, hhi, hp⟩
  · rintro (⟨h1, h2, hp⟩ | ⟨h1, h2, hp⟩)
    · exact ⟨r, by omega, Or.inl ⟨rfl, ⟨by omega, h2⟩, hp⟩⟩
    · exact ⟨x, by omega, Or.inr ⟨rfl, ⟨by omega, h2⟩, hp⟩⟩

/-- C7.  After `build_neighbours` runs, the list is a symmetric Verlet
list: for every pair of distinct in-range atoms whose minimum-image
squared displacement (oriented low-to-high index, as the code computes
it) is strictly below `(CUTOFF + SKIN)²`, each atom appears in the
other's row; and no pair at or beyond that distance appears in either
row. -/
theorem c7_neighbour_symmetric (posits : List Vec3Q) (cell : SimBox)
    (cutoff skin : ℚ) (i j : ℕ) (hi : i < posits.length)
    (hj : j < posits.length) (hij : i ≠ j) :
    (pairDist2 posits cell (min i j) (max i j) < (cutoff + skin) ^ 2 →
      j ∈ (buildNeighbours posits cell cutoff skin).getD i [] ∧
      i ∈ (buildNeighbours posits cell cutoff skin).getD j []) ∧
    (¬ pairDist2 posits cell (min i j) (max i j) < (cutoff + skin) ^ 2 →
      j ∉ (buildNeighbours posits cell cutoff skin).getD i [] ∧
      i ∉ (buildNeighbours posits cell cutoff skin).getD j []) := by
  constructor
  · intro hlt
    rcases Nat.lt_or_ge i j with hijlt | hge
    · rw [min_eq_left (le_of_lt hijlt), max_eq_right (le_of_lt hijlt)] at hlt
      exact ⟨(buildNeighbours_mem posits cell cutoff skin j i).mpr
          (Or.inl ⟨hijlt, hj, hlt⟩),
        (buildNeighbours_mem posits cell cutoff skin i j).mpr
          (Or.inr ⟨hijlt, hj, hlt⟩)⟩
    · have hjilt : j < i := by omega
      rw [min_eq_right (le_of_lt hjilt), max_eq_left (le_of_lt hjilt)] at hlt
      exact ⟨(buildNeighbours_mem posits cell cutoff skin j i).mpr
          (Or.inr ⟨hjilt, hi, hlt⟩),
        (buildNeighbours_mem posits cell cutoff skin i j).mpr
          (Or.inl ⟨hjilt, hi, hlt⟩)⟩
  · intro hge
    constructor
    · intro hmem
      rcases (buildNeighbours_mem posits cell cutoff skin j i).mp hmem with
        ⟨h1, h2, hp⟩ | ⟨h1, h2, hp⟩
      · exact hge (by rw [min_eq_left (by omega), max_eq_right (by omega)]; exact hp)
      · exact hge (by rw [min_eq_right (by omega), max_eq_left (by omega)]; exact hp)
    · intro hmem
      rcases (buildNeighbours_mem posits cell cutoff skin i j).mp hmem with
        ⟨h1, h2, hp⟩ | ⟨h1, h2, hp⟩
      · exact hge (by rw [min_eq_right (by omega), max_eq_left (by omega)]; exact hp)
      · exact hge (by rw [min_eq_left (by omega), max_eq_right (by omega)]; exact hp)

/-- Three collinear positions: atoms 0 and 1 are 1 Å apart, atom 2 is far. -/
def nbPosits : List Vec3Q := [⟨0, 0, 0⟩, ⟨1, 0, 0⟩, ⟨50, 0, 0⟩]

/-- A padded cell around those positions. -/
def nbCell : SimBox := ⟨⟨-15, -15, -15⟩, ⟨65, 15, 15⟩⟩

theorem c7_neighbour_symmetric_witness :
    1 ∈ (buildNeighbours nbPosits nbCell 10 2).getD 0 [] ∧
      0 ∈ (buildNeighbours nbPosits nbCell 10 2).getD 1 [] :=
  (c7_neighbour_symmetric nbPosits nbCell 10 2 0 1 (by decide) (by decide)
    (by decide)).1 (by
      norm_num [pairDist2, nbPosits, nbCell, SimBox.minImage, wrapAxis,
        Vec3Q.sub, Vec3Q.magSq, round_eq])

/-! ### Forward-kinematics solver (src/aa_coords/sc_atom_placement.rs)

The geometric dependencies of `find_atom_placement` — the `lin_alg`
quaternion/vector library and `aa_coords::calc_dihedral_angle` — are not
under src/, so they are modelled here over `ℝ` from the spec (§4.1):
quaternions act by conjugation, `from_axis_angle` is the half-angle
quaternion, `from_unit_vecs` is the minimal (half-way) rotation, and the
dihedral measure is "a standard signed-dihedral formula (atan2 of a
cross/dot construction)", realised as `Complex.arg` of the standard
cross/dot pair. -/

/-- A 3-vector over ℝ. -/
@[ext]
structure Vec3R where
  x : ℝ
  y : ℝ
  z : ℝ

namespace Vec3R

/-- Componentwise sum. -/
def add (a b : Vec3R) : Vec3R := ⟨a.x + b.x, a.y + b.y, a.z + b.z⟩

/-- Componentwise difference. -/
def sub (a b : Vec3R) : Vec3R := ⟨a.x - b.x, a.y - b.y, a.z - b.z⟩

/-- Scalar multiple. -/
def smul (c : ℝ) (a : Vec3R) : Vec3R := ⟨c * a.x, c * a.y, c * a.z⟩

/-- Dot product. -/
def dot (a b : Vec3R) : ℝ := a.x * b.x + a.y * b.y + a.z * b.z

/-- Cross product. -/
def cross (a b : Vec3R) : Vec3R :=
  ⟨a.y * b.z - a.z * b.y, a.z * b.x - a.x * b.z, a.x * b.y - a.y * b.x⟩

end Vec3R

/-- A quaternion (Hamilton product), modelling `lin_alg::f64::Quaternion`. -/
@[ext]
structure QuatR where
  w : ℝ
  x : ℝ
  y : ℝ
  z : ℝ

namespace QuatR

/-- Hamilton product. -/
def mul (a b : QuatR) : QuatR :=
  ⟨a.w * b.w - a.x * b.x - a.y * b.y - a.z * b.z,
    a.w * b.x + a.x * b.w + a.y * b.z - a.z * b.y,
    a.w * b.y - a.x * b.z + a.y * b.w + a.z * b.x,
    a.w * b.z + a.x * b.y - a.y * b.x + a.z * b.w⟩

/-- Conjugate. -/
def conj (a : QuatR) : QuatR := ⟨a.w, -a.x, -a.y, -a.z⟩

/-- Squared norm. -/
def normSq (a : QuatR) : ℝ := a.w * a.w + a.x * a.x + a.y * a.y + a.z * a.z

/-- `Quaternion::rotate_vec`: conjugation `q v q⁻¹` on pure quaternions
(for unit `q`). -/
def rotateVec (q : QuatR) (v : Vec3R) : Vec3R :=
  let p := q.mul (QuatR.mk 0 v.x v.y v.z)
  let r := p.mul q.conj
  ⟨r.x, r.y, r.z⟩

end QuatR

/-- `Quaternion::from_axis_angle`: the half-angle quaternion about a unit
axis. -/
noncomputable def fromAxisAngle (axis : Vec3R) (θ : ℝ) : QuatR :=
  ⟨Real.cos (θ / 2), Real.sin (θ / 2) * axis.x, Real.sin (θ / 2) * axis.y,
    Real.sin (θ / 2) * axis.z⟩

/-- Modelled from the spec: `Quaternion::from_unit_vecs` (external
`lin_alg`) is "the minimal rotation mapping" one unit vector onto
another; the standard half-way quaternion, with an arbitrary 180°
rotation at the antiparallel singularity. -/
noncomputable def fromUnitVecs (a b : Vec3R) : QuatR :=
  let d := a.dot b
  let c := a.cross b
  let s := Real.sqrt (2 + 2 * d)
  if s = 0 then ⟨0, 1, 0, 0⟩
  else ⟨(1 + d) / s, c.x / s, c.y / s, c.z / s⟩

/-- The complex number whose argument is the signed dihedral angle of
`b3` against `b1` across the (unit) central bond `mid`. -/
def diheC (mid b1 b3 : Vec3R) : ℂ :=
  ⟨(b1.cross mid).dot (mid.cross b3), (mid.cross (b1.cross mid)).dot (mid.cross b3)⟩

/-- Modelled from the spec: `aa_coords::calc_dihedral_angle` is not under
src/; §4.1 describes it as "a standard signed-dihedral formula (atan2 of
a cross/dot construction)": `atan2(y, x) = arg (x + y·i)` of the
cross/dot pair. -/
noncomputable def calcDihedralAngle (mid b1 b3 : Vec3R) : ℝ :=
  Complex.arg (diheC mid b1 b3)

open scoped Classical in
/-- `find_atom_placement` (src/aa_coords/sc_atom_placement.rs:15-70),
line by line: world position, bond alignment, current dihedral, the
correction rotation by `angle_dif`, the re-measure, and the
`-angle_dif + 2π` fallback branch when the re-measured dihedral is more
than 1e-4 rad from the target. -/
noncomputable def findAtomPlacement (or_prev : QuatR)
    (bond_to_prev_local bond_to_next_local : Vec3R) (dihedral_angle : ℝ)
    (posit_prev posit_2_back : Vec3R) (bond_to_this_local : Vec3R)
    (bond_to_this_len : ℝ) : Vec3R × QuatR :=
  let prev_bond_world := posit_prev.sub posit_2_back
  let position :=
    posit_prev.add ((or_prev.rotateVec bond_to_this_local).smul bond_to_this_len)
  let bond_to_this_worldspace := or_prev.rotateVec bond_to_this_local
  let bond_alignment_rotation :=
    fromUnitVecs (bond_to_prev_local.smul (-1)) bond_to_this_worldspace
  let next_bond_worldspace := bond_alignment_rotation.rotateVec bond_to_next_local
  let dihedral_angle_current :=
    calcDihedralAngle bond_to_this_worldspace prev_bond_world next_bond_worldspace
  let angle_dif := dihedral_angle - dihedral_angle_current
  let rotate_axis := bond_to_this_worldspace
  let dihedral_rotation0 := fromAxisAngle rotate_axis angle_dif
  let dihedral_angle_current2 :=
    calcDihedralAngle bond_to_this_worldspace prev_bond_world
      ((dihedral_rotation0.mul bond_alignment_rotation).rotateVec bond_to_next_local)
  let dihedral_rotation :=
    if |dihedral_angle - dihedral_angle_current2| > 0.0001 then
      fromAxisAngle rotate_axis (-angle_dif + 2 * Real.pi)
    else dihedral_rotation0
  (position, dihedral_rotation.mul bond_alignment_rotation)

theorem rotateVec_mul (p q : QuatR) (v : Vec3R) :
    (p.mul q).rotateVec v = p.rotateVec (q.rotateVec v) := by
  apply Vec3R.ext <;>
    (simp only [QuatR.rotateVec, QuatR.mul, QuatR.conj]; ring)

theorem dot_rotateVec (q : QuatR) (w : Vec3R) (hq : q.normSq = 1) :
    (q.rotateVec w).dot (q.rotateVec w) = w.dot w := by
  unfold QuatR.normSq at hq
  simp only [QuatR.rotateVec, QuatR.mul, QuatR.conj, Vec3R.dot]
  linear_combination ((q.w * q.w + q.x * q.x + q.y * q.y + q.z * q.z + 1) *
    (w.x * w.x + w.y * w.y + w.z * w.z)) * hq

theorem diheC_re_rot (a u v : Vec3R) (α : ℝ) (ha : a.dot a = 1) :
    ((u.cross a).dot (a.cross ((fromAxisAngle a α).rotateVec v))) =
      ((Real.cos (α / 2)) ^ 2 - (Real.sin (α / 2)) ^ 2) *
        ((u.cross a).dot (a.cross v)) -
      (2 * Real.cos (α / 2) * Real.sin (α / 2)) *
        ((a.cross (u.cross a)).dot (a.cross v)) := by
  unfold Vec3R.dot at ha
  simp only [fromAxisAngle, QuatR.rotateVec, QuatR.mul, QuatR.conj,
    Vec3R.cross, Vec3R.dot]
  linear_combination (-(Real.sin (α / 2)) ^ 2 *
    ((u.y * a.z - u.z * a.y) * (a.y * v.z - a.z * v.y) +
     (u.z * a.x - u.x * a.z) * (a.z * v.x - a.x * v.z) +
     (u.x * a.y - u.y * a.x) * (a.x * v.y - a.y * v.x))) * ha

theorem diheC_im_rot (a u v : Vec3R) (α : ℝ) (ha : a.dot a = 1) :
    ((a.cross (u.cross a)).dot (a.cross ((fromAxisAngle a α).rotateVec v))) =
      (2 * Real.cos (α / 2) * Real.sin (α / 2)) *
        ((u.cross a).dot (a.cross v)) +
      ((Real.cos (α / 2)) ^ 2 - (Real.sin (α / 2)) ^ 2) *
        ((a.cross (u.cross a)).dot (a.cross v)) := by
  unfold Vec3R.dot at ha
  simp only [fromAxisAngle, QuatR.rotateVec, QuatR.mul, QuatR.conj,
    Vec3R.cross, Vec3R.dot]
  linear_combination ((2 * Real.cos (α / 2) * Real.sin (α / 2) *
    ((u.y * a.z - u.z * a.y) * (a.y * v.z - a.z * v.y) +
     (u.z * a.x - u.x * a.z) * (a.z * v.x - a.x * v.z) +
     (u.x * a.y - u.y * a.x) * (a.x * v.y - a.y * v.x)) -
    (Real.sin (α / 2)) ^ 2 *
    ((a.y * (u.x * a.y - u.y * a.x) - a.z * (u.z * a.x - u.x * a.z)) *
        (a.y * v.z - a.z * v.y) +
     (a.z * (u.y * a.z - u.z * a.y) - a.x * (u.x * a.y - u.y * a.x)) *
        (a.z * v.x - a.x * v.z) +
     (a.x * (u.z * a.x - u.x * a.z) - a.y * (u.y * a.z - u.z * a.y)) *
        (a.x * v.y - a.y * v.x)))) * ha

theorem diheC_re (mid b1 b3 : Vec3R) :
    (diheC mid b1 b3).re = (b1.cross mid).dot (mid.cross b3) := rfl

theorem diheC_im (mid b1 b3 : Vec3R) :
    (diheC mid b1 b3).im = (mid.cross (b1.cross mid)).dot (mid.cross b3) := rfl

theorem diheC_rot (a u v : Vec3R) (α : ℝ) (ha : a.dot a = 1) :
    diheC a u ((fromAxisAngle a α).rotateVec v) =
      (Real.cos α + Real.sin α * Complex.I) * diheC a u v := by
  have hc : Real.cos (α / 2) ^ 2 - Real.sin (α / 2) ^ 2 = Real.cos α := by
    have h2 := Real.cos_two_mul (α / 2)
    rw [show 2 * (α / 2) = α by ring] at h2
    linear_combination -h2 - Real.sin_sq_add_cos_sq (α / 2)
  have hs : 2 * Real.cos (α / 2) * Real.sin (α / 2) = Real.sin α := by
    have h2 := Real.sin_two_mul (α / 2)
    rw [show 2 * (α / 2) = α by ring] at h2
    linear_combination -h2
  apply Complex.ext
  · simp only [diheC_re, diheC_im, Complex.mul_re, Complex.mul_im,
      Complex.add_re, Complex.add_im, Complex.ofReal_re, Complex.ofReal_im,
      Complex.I_re, Complex.I_im, mul_zero, mul_one, zero_mul, zero_add,
      add_zero, sub_zero]
    linear_combination diheC_re_rot a u v α ha +
      ((u.cross a).dot (a.cross v)) * hc -
      ((a.cross (u.cross a)).dot (a.cross v)) * hs
  · simp only [diheC_re, diheC_im, Complex.mul_re, Complex.mul_im,
      Complex.add_re, Complex.add_im, Complex.ofReal_re, Complex.ofReal_im,
      Complex.I_re, Complex.I_im, mul_zero, mul_one, zero_mul, zero_add,
      add_zero, sub_zero]
    linear_combination diheC_im_rot a u v α ha +
      ((u.cross a).dot (a.cross v)) * hs +
      ((a.cross (u.cross a)).dot (a.cross v)) * hc

theorem rotC_ne_zero (α : ℝ) :
    (Real.cos α + Real.sin α * Complex.I : ℂ) ≠ 0 := by
  intro h
  have h1 : Real.cos α = 0 := by
    have := congrArg Complex.re h
    simpa using this
  have h2 : Real.sin α = 0 := by
    have := congrArg Complex.im h
    simpa using this
  have h3 := Real.sin_sq_add_cos_sq α
  rw [h1, h2] at h3
  norm_num at h3

theorem calc_rot (a u v : Vec3R) (α : ℝ) (ha : a.dot a = 1)
    (hz : diheC a u v ≠ 0) :
    ((calcDihedralAngle a u ((fromAxisAngle a α).rotateVec v) : ℝ) : Real.Angle) =
      (α : Real.Angle) + ((calcDihedralAngle a u v : ℝ) : Real.Angle) := by
  unfold calcDihedralAngle
  rw [diheC_rot a u v α ha]
  rw [Complex.arg_mul_coe_angle (rotC_ne_zero α) hz]
  rw [← Real.Angle.cos_coe, ← Real.Angle.sin_coe,
    Complex.arg_cos_add_sin_mul_I_coe_angle]

theorem arg_angle_val (z : ℂ) (t : ℝ)
    (h : ((Complex.arg z : ℝ) : Real.Angle) = (t : Real.Angle))
    (ht : t ∈ Set.Ioc (-Real.pi) Real.pi) : Complex.arg z = t := by
  have h2 := congrArg Real.Angle.toReal h
  rwa [Complex.arg_coe_angle_toReal_eq_arg,
    Real.Angle.toReal_coe_eq_self_iff_mem_Ioc.mpr ht] at h2

theorem calc_rot_val (a u v : Vec3R) (δ t : ℝ) (ha : a.dot a = 1)
    (hz : diheC a u v ≠ 0)
    (hang : ((δ + calcDihedralAngle a u v : ℝ) : Real.Angle) = (t : Real.Angle))
    (ht : t ∈ Set.Ioc (-Real.pi) Real.pi) :
    calcDihedralAngle a u ((fromAxisAngle a δ).rotateVec v) = t := by
  unfold calcDihedralAngle
  refine arg_angle_val _ t ?_ ht
  have h1 := calc_rot a u v δ ha hz
  unfold calcDihedralAngle at h1
  rw [h1, ← Real.Angle.coe_add]
  exact hang

theorem findAtomPlacement_snd (q : QuatR) (btp btn : Vec3R) (θ : ℝ)
    (pp p2b btl : Vec3R) (len : ℝ) :
    (findAtomPlacement q btp btn θ pp p2b btl len).2 =
      (if |θ - calcDihedralAngle (q.rotateVec btl) (pp.sub p2b)
              (((fromAxisAngle (q.rotateVec btl)
                  (θ - calcDihedralAngle (q.rotateVec btl) (pp.sub p2b)
                    ((fromUnitVecs (btp.smul (-1)) (q.rotateVec btl)).rotateVec
                      btn))).mul
                (fromUnitVecs (btp.smul (-1)) (q.rotateVec btl))).rotateVec
                btn)| > 0.0001
       then fromAxisAngle (q.rotateVec btl)
         (-(θ - calcDihedralAngle (q.rotateVec btl) (pp.sub p2b)
              ((fromUnitVecs (btp.smul (-1)) (q.rotateVec btl)).rotateVec btn)) +
           2 * Real.pi)
       else fromAxisAngle (q.rotateVec btl)
         (θ - calcDihedralAngle (q.rotateVec btl) (pp.sub p2b)
            ((fromUnitVecs (btp.smul (-1)) (q.rotateVec btl)).rotateVec btn))).mul
      (fromUnitVecs (btp.smul (-1)) (q.rotateVec btl)) := rfl

theorem roundtrip_core (a u : Vec3R) (align : QuatR) (btn : Vec3R) (θ : ℝ)
    (ha : a.dot a = 1) (hz : diheC a u (align.rotateVec btn) ≠ 0)
    (hθ : θ ∈ Set.Ioc (-Real.pi) Real.pi) :
    calcDihedralAngle a u
      (((if |θ - calcDihedralAngle a u
              (((fromAxisAngle a
                  (θ - calcDihedralAngle a u (align.rotateVec btn))).mul
                align).rotateVec btn)| > 0.0001
         then fromAxisAngle a
           (-(θ - calcDihedralAngle a u (align.rotateVec btn)) + 2 * Real.pi)
         else fromAxisAngle a
           (θ - calcDihedralAngle a u (align.rotateVec btn))).mul
        align).rotateVec btn) = θ := by
  have hm2 : calcDihedralAngle a u
      (((fromAxisAngle a (θ - calcDihedralAngle a u (align.rotateVec btn))).mul
        align).rotateVec btn) = θ := by
    rw [rotateVec_mul]
    refine calc_rot_val a u (align.rotateVec btn)
      (θ - calcDihedralAngle a u (align.rotateVec btn)) θ ha hz ?_ hθ
    have h3 : θ - calcDihedralAngle a u (align.rotateVec btn) +
        calcDihedralAngle a u (align.rotateVec btn) = θ := by ring
    rw [h3]
  rw [hm2, sub_self, abs_zero, if_neg (by norm_num : ¬((0:ℝ) > 0.0001)),
    rotateVec_mul]
  refine calc_rot_val a u (align.rotateVec btn)
    (θ - calcDihedralAngle a u (align.rotateVec btn)) θ ha hz ?_ hθ
  have h3 : θ - calcDihedralAngle a u (align.rotateVec btn) +
      calcDihedralAngle a u (align.rotateVec btn) = θ := by ring
  rw [h3]

theorem rotateVec_unit (v : Vec3R) : (QuatR.mk 1 0 0 0).rotateVec v = v := by
  apply Vec3R.ext <;>
    (simp only [QuatR.rotateVec, QuatR.mul, QuatR.conj]; ring)

theorem quat_mul_unit (q : QuatR) : q.mul (QuatR.mk 1 0 0 0) = q := by
  apply QuatR.ext <;> (simp only [QuatR.mul]; ring)

theorem smul_neg_cfg : Vec3R.smul (-1) ⟨-1, 0, 0⟩ = (⟨1, 0, 0⟩ : Vec3R) := by
  apply Vec3R.ext <;> norm_num [Vec3R.smul]

theorem sub_zero_cfg : Vec3R.sub ⟨0, 0, 1⟩ ⟨0, 0, 0⟩ = (⟨0, 0, 1⟩ : Vec3R) := by
  apply Vec3R.ext <;> norm_num [Vec3R.sub]

theorem fromUnitVecs_e1_e1 :
    fromUnitVecs ⟨1, 0, 0⟩ ⟨1, 0, 0⟩ = QuatR.mk 1 0 0 0 := by
  have h4 : Real.sqrt (2 + 2 * Vec3R.dot ⟨1, 0, 0⟩ ⟨1, 0, 0⟩) = 2 := by
    have he : (2 + 2 * Vec3R.dot ⟨1, 0, 0⟩ ⟨1, 0, 0⟩ : ℝ) = 2 ^ 2 := by
      norm_num [Vec3R.dot]
    rw [he, Real.sqrt_sq (by norm_num : (0:ℝ) ≤ 2)]
  simp only [fromUnitVecs]
  rw [h4, if_neg (by norm_num : ¬((2:ℝ) = 0))]
  apply QuatR.ext <;> norm_num [Vec3R.dot, Vec3R.cross]

theorem diheC_cfg : diheC ⟨1, 0, 0⟩ ⟨0, 0, 1⟩ ⟨0, 1, 0⟩ = Complex.I := by
  apply Complex.ext
  · rw [diheC_re]
    norm_num [Vec3R.cross, Vec3R.dot, Complex.I_re]
  · rw [diheC_im]
    norm_num [Vec3R.cross, Vec3R.dot, Complex.I_im]

theorem calc_cfg :
    calcDihedralAngle ⟨1, 0, 0⟩ ⟨0, 0, 1⟩ ⟨0, 1, 0⟩ = Real.pi / 2 := by
  unfold calcDihedralAngle
  rw [diheC_cfg]
  exact Complex.arg_I

/-- C1 (amended): for a unit previous orientation, a unit local bond
vector, a non-degenerate dihedral frame (the atan2 operand of the
re-measured dihedral is nonzero), and a target dihedral `θ` in the
half-open range `(-π, π]`, the orientation returned by
`find_atom_placement`, re-measured by `calc_dihedral_angle` on the new
bond world direction, the previous bond world vector, and the rotated
`bond_to_next_local`, reproduces `θ` exactly — in particular within
1e-4 rad.  (The original claim's closed range `[-π, π]` fails at
`θ = -π`: see the counterexample.) -/
theorem c1_dihedral_roundtrip (or_prev : QuatR) (btp btn : Vec3R) (θ : ℝ)
    (pp p2b btl : Vec3R) (len : ℝ)
    (hq : or_prev.normSq = 1) (hbtl : btl.dot btl = 1)
    (hz : diheC (or_prev.rotateVec btl) (pp.sub p2b)
      ((fromUnitVecs (btp.smul (-1)) (or_prev.rotateVec btl)).rotateVec btn) ≠ 0)
    (hθ : θ ∈ Set.Ioc (-Real.pi) Real.pi) :
    calcDihedralAngle (or_prev.rotateVec btl) (pp.sub p2b)
        ((findAtomPlacement or_prev btp btn θ pp p2b btl len).2.rotateVec btn)
      = θ ∧
    |calcDihedralAngle (or_prev.rotateVec btl) (pp.sub p2b)
        ((findAtomPlacement or_prev btp btn θ pp p2b btl len).2.rotateVec btn)
      - θ| ≤ 0.0001 := by
  have ha : (or_prev.rotateVec btl).dot (or_prev.rotateVec btl) = 1 := by
    rw [dot_rotateVec or_prev btl hq]
    exact hbtl
  have hmain : calcDihedralAngle (or_prev.rotateVec btl) (pp.sub p2b)
      ((findAtomPlacement or_prev btp btn θ pp p2b btl len).2.rotateVec btn)
      = θ := by
    rw [findAtomPlacement_snd]
    exact roundtrip_core (or_prev.rotateVec btl) (pp.sub p2b)
      (fromUnitVecs (btp.smul (-1)) (or_prev.rotateVec btl)) btn θ ha hz hθ
  refine ⟨hmain, ?_⟩
  rw [hmain, sub_self, abs_zero]
  norm_num

/-- Witness for C1 at a concrete configuration: identity previous
orientation, unit bonds along the axes, target dihedral `π/2`; every
hypothesis holds and the re-measured dihedral is exactly `π/2`. -/
theorem c1_dihedral_roundtrip_witness :
    calcDihedralAngle ((QuatR.mk 1 0 0 0).rotateVec ⟨1, 0, 0⟩)
        (Vec3R.sub ⟨0, 0, 1⟩ ⟨0, 0, 0⟩)
        ((findAtomPlacement ⟨1, 0, 0, 0⟩ ⟨-1, 0, 0⟩ ⟨0, 1, 0⟩ (Real.pi / 2)
            ⟨0, 0, 1⟩ ⟨0, 0, 0⟩ ⟨1, 0, 0⟩ 1).2.rotateVec ⟨0, 1, 0⟩)
      = Real.pi / 2 :=
  (c1_dihedral_roundtrip ⟨1, 0, 0, 0⟩ ⟨-1, 0, 0⟩ ⟨0, 1, 0⟩ (Real.pi / 2)
    ⟨0, 0, 1⟩ ⟨0, 0, 0⟩ ⟨1, 0, 0⟩ 1
    (by norm_num [QuatR.normSq])
    (by norm_num [Vec3R.dot])
    (by
      rw [rotateVec_unit, smul_neg_cfg, fromUnitVecs_e1_e1, rotateVec_unit,
        sub_zero_cfg, diheC_cfg]
      exact Complex.I_ne_zero)
    ⟨by linarith [Real.pi_pos], by linarith [Real.pi_pos]⟩).1

/-- Counterexample to C1 as stated: at the well-formed configuration
below (unit orientation, unit bonds, non-degenerate frame) with target
dihedral `θ = -π` — inside the claim's closed range `[-π, π]` — the
re-measured dihedral is `0`, an error of `π`, far beyond 1e-4 rad: the
`-angle_dif + 2π` correction branch fires on the 2π wrap-around and
rebuilds the rotation with the wrong sign. -/
theorem c1_counterexample :
    (QuatR.mk 1 0 0 0).normSq = 1 ∧
    Vec3R.dot ⟨1, 0, 0⟩ ⟨1, 0, 0⟩ = 1 ∧
    diheC ((QuatR.mk 1 0 0 0).rotateVec ⟨1, 0, 0⟩)
      (Vec3R.sub ⟨0, 0, 1⟩ ⟨0, 0, 0⟩)
      ((fromUnitVecs (Vec3R.smul (-1) ⟨-1, 0, 0⟩)
          ((QuatR.mk 1 0 0 0).rotateVec ⟨1, 0, 0⟩)).rotateVec ⟨0, 1, 0⟩) ≠ 0 ∧
    -Real.pi ∈ Set.Icc (-Real.pi) Real.pi ∧
    calcDihedralAngle ((QuatR.mk 1 0 0 0).rotateVec ⟨1, 0, 0⟩)
        (Vec3R.sub ⟨0, 0, 1⟩ ⟨0, 0, 0⟩)
        ((findAtomPlacement ⟨1, 0, 0, 0⟩ ⟨-1, 0, 0⟩ ⟨0, 1, 0⟩ (-Real.pi)
            ⟨0, 0, 1⟩ ⟨0, 0, 0⟩ ⟨1, 0, 0⟩ 1).2.rotateVec ⟨0, 1, 0⟩) = 0 ∧
    ¬ |(0 : ℝ) - -Real.pi| ≤ 0.0001 := by
  refine ⟨by norm_num [QuatR.normSq], by norm_num [Vec3R.dot], ?_, ?_, ?_, ?_⟩
  · rw [rotateVec_unit, smul_neg_cfg, fromUnitVecs_e1_e1, rotateVec_unit,
      sub_zero_cfg, diheC_cfg]
    exact Complex.I_ne_zero
  · exact ⟨le_refl _, by linarith [Real.pi_pos]⟩
  · rw [findAtomPlacement_snd]
    simp only [rotateVec_unit, smul_neg_cfg, sub_zero_cfg, fromUnitVecs_e1_e1,
      quat_mul_unit, calc_cfg]
    have hm2 : calcDihedralAngle ⟨1, 0, 0⟩ ⟨0, 0, 1⟩
        ((fromAxisAngle ⟨1, 0, 0⟩ (-Real.pi - Real.pi / 2)).rotateVec
          ⟨0, 1, 0⟩) = Real.pi := by
      refine calc_rot_val _ _ _ _ _ (by norm_num [Vec3R.dot]) ?_ ?_ ?_
      · rw [diheC_cfg]
        exact Complex.I_ne_zero
      · rw [calc_cfg, Real.Angle.angle_eq_iff_two_pi_dvd_sub]
        exact ⟨-1, by push_cast; ring⟩
      · exact ⟨by linarith [Real.pi_pos], le_refl _⟩
    rw [hm2, if_pos (by
      rw [abs_of_nonpos (by linarith [Real.pi_pos] : -Real.pi - Real.pi ≤ 0)]
      linarith [Real.pi_gt_three])]
    refine calc_rot_val _ _ _ _ _ (by norm_num [Vec3R.dot]) ?_ ?_ ?_
    · rw [diheC_cfg]
      exact Complex.I_ne_zero
    · rw [calc_cfg, Real.Angle.angle_eq_iff_two_pi_dvd_sub]
      exact ⟨2, by push_cast; ring⟩
    · exact ⟨by linarith [Real.pi_pos], by linarith [Real.pi_pos]⟩
  · rw [abs_of_nonneg (by linarith [Real.pi_pos] : (0:ℝ) ≤ 0 - -Real.pi)]
    intro hcon
    linarith [Real.pi_gt_three]
